import Mathlib

/-!
# The AESD circular buffer

A shallow embedding of `aesd-char-driver/aesd-circular-buffer.c` and the
properties proved about it.

Conventions of the embedding.

* `N` stands for `AESDCHAR_MAX_WRITE_OPERATIONS_SUPPORTED`.  The header that
  defines it is not part of the sources, so every definition takes it as a
  parameter.
* `w` is the width of `size_t` in bits; every `size_t` addition and
  subtraction of the source is taken modulo `2 ^ w`.
* The local `uint8_t index` of the lookup is reduced modulo `256` at each
  assignment.
* A pointer argument is an `Option`: `none` is `NULL`.
* The pointer returned by the lookup, `&buffer->entry[index]`, is represented
  by the slot number `index`.
* A subscript outside `entry[0 .. N-1]` is undefined in C; the embedding stops
  with `Fault.out_of_bounds`.  Loops run on a budget of iterations and stop
  with `Fault.out_of_fuel` when it is used up.
* The two loops of the lookup are embedded twice more: once with the list of
  visited slots next to the result (`find_loop_full_visits`,
  `find_loop_notfull_visits`), once with natural-number arithmetic in place of
  `size_t` (`find_loop_full_unbounded`, `find_loop_notfull_unbounded`).
-/

namespace AesdCircularBuffer

/-- The record `struct aesd_buffer_entry`: an address and a byte count. -/
structure aesd_buffer_entry where
  buffptr : Nat
  size : Nat
deriving DecidableEq, Repr

/-- The record `struct aesd_circular_buffer`: the slot array and the cursors. -/
structure aesd_circular_buffer where
  entry : List aesd_buffer_entry
  in_offs : Nat
  out_offs : Nat
  full : Bool
deriving DecidableEq, Repr

/-- Ways in which a run of the embedded code can fail to return. -/
inductive Fault where
  | out_of_bounds
  | out_of_fuel
deriving DecidableEq, Repr

deriving instance DecidableEq for Except

/-- What a call of the lookup leaves behind: the buffer after the call, the
returned pointer (`none` for `NULL`, `some i` for `&buffer->entry[i]`) and the
contents of the location `entry_offset_byte_rtn` points to. -/
structure Lookup where
  buffer : Option aesd_circular_buffer
  ret : Option Nat
  entry_offset_byte_rtn : Nat
deriving DecidableEq, Repr

/-- Addition of two `size_t` values. -/
def size_add (w a b : Nat) : Nat := (a + b) % 2 ^ w

/-- Subtraction of two `size_t` values. -/
def size_sub (w a b : Nat) : Nat := (a + 2 ^ w - b) % 2 ^ w

/-- The assignment `index = (index + 1) % AESDCHAR_MAX_WRITE_OPERATIONS_SUPPORTED`
to a `uint8_t`. -/
def next_index (N index : Nat) : Nat := ((index + 1) % N) % 256

/-- The `do { ... } while (index != buffer->out_offs)` loop of the lookup, lines
44-53.  The result `some (index, offset)` is the early return from inside the
body, `none` is the normal exit of the loop. -/
def find_loop_full (w N : Nat) (buffer : aesd_circular_buffer) (char_offset : Nat) :
    Nat → Nat → Nat → Except Fault (Option (Nat × Nat))
  | 0, _, _ => .error Fault.out_of_fuel
  | fuel + 1, index, current_offset =>
    match buffer.entry[index]? with
    | none => .error Fault.out_of_bounds
    | some e =>
      let entry_size := e.size
      if char_offset < size_add w current_offset entry_size then
        .ok (some (index, size_sub w char_offset current_offset))
      else
        let current_offset := size_add w current_offset entry_size
        let index := next_index N index
        if index ≠ buffer.out_offs then
          find_loop_full w N buffer char_offset fuel index current_offset
        else
          .ok none

/-- The `while (index != buffer->in_offs) { ... }` loop of the lookup, lines
57-66.  Results as for `find_loop_full`. -/
def find_loop_notfull (w N : Nat) (buffer : aesd_circular_buffer) (char_offset : Nat) :
    Nat → Nat → Nat → Except Fault (Option (Nat × Nat))
  | 0, _, _ => .error Fault.out_of_fuel
  | fuel + 1, index, current_offset =>
    if index ≠ buffer.in_offs then
      match buffer.entry[index]? with
      | none => .error Fault.out_of_bounds
      | some e =>
        let entry_size := e.size
        if char_offset < size_add w current_offset entry_size then
          .ok (some (index, size_sub w char_offset current_offset))
        else
          let current_offset := size_add w current_offset entry_size
          let index := next_index N index
          find_loop_notfull w N buffer char_offset fuel index current_offset
    else
      .ok none

/-- The function `aesd_circular_buffer_find_entry_offset_for_fpos`.  The last
argument is the value stored at `entry_offset_byte_rtn` before the call. -/
def aesd_circular_buffer_find_entry_offset_for_fpos (w N fuel : Nat)
    (buffer : Option aesd_circular_buffer) (char_offset : Nat)
    (entry_offset_byte_rtn : Nat) : Except Fault Lookup :=
  match buffer with
  | none => .ok ⟨none, none, entry_offset_byte_rtn⟩
  | some b =>
    let index := b.out_offs % 256
    let current_offset := 0
    let scan :=
      if b.full then find_loop_full w N b char_offset fuel index current_offset
      else find_loop_notfull w N b char_offset fuel index current_offset
    match scan with
    | .error f => .error f
    | .ok (some (i, off)) => .ok ⟨some b, some i, off⟩
    | .ok none => .ok ⟨some b, none, entry_offset_byte_rtn⟩

/-- The function `aesd_circular_buffer_add_entry`.  The result is the buffer
after the call (`none` when the buffer pointer is `NULL`). -/
def aesd_circular_buffer_add_entry (N : Nat) (buffer : Option aesd_circular_buffer)
    (add_entry : Option aesd_buffer_entry) : Except Fault (Option aesd_circular_buffer) :=
  match buffer, add_entry with
  | none, _ => .ok none
  | some b, none => .ok (some b)
  | some b, some e =>
    if b.in_offs < b.entry.length then
      let entry := b.entry.set b.in_offs e
      let out_offs := if b.full then (b.out_offs + 1) % N else b.out_offs
      let in_offs := (b.in_offs + 1) % N
      let full := if in_offs = out_offs then true else b.full
      .ok (some ⟨entry, in_offs, out_offs, full⟩)
    else
      .error Fault.out_of_bounds

/-- The function `aesd_circular_buffer_init`: `memset` of the whole structure
to zero.  The argument is the buffer before the call. -/
def aesd_circular_buffer_init (N : Nat) (_buffer : aesd_circular_buffer) :
    aesd_circular_buffer :=
  ⟨List.replicate N ⟨0, 0⟩, 0, 0, false⟩

/-- A run of successive `aesd_circular_buffer_add_entry` calls on one buffer. -/
def add_entries (N : Nat) :
    Option aesd_circular_buffer → List (Option aesd_buffer_entry) →
      Except Fault (Option aesd_circular_buffer)
  | buffer, [] => .ok buffer
  | buffer, e :: es =>
    match aesd_circular_buffer_add_entry N buffer e with
    | .error f => .error f
    | .ok buffer => add_entries N buffer es

/-! ## The vocabulary of the specification -/

/-- The capacity fits the `uint8_t` used to walk the slots. -/
def Capacity (N : Nat) : Prop := 0 < N ∧ N ≤ 256

/-- The index invariants: the slot array has `N` slots and both cursors are
below `N`. -/
def IndexInv (N : Nat) (b : aesd_circular_buffer) : Prop :=
  b.entry.length = N ∧ b.in_offs < N ∧ b.out_offs < N

/-- Number of live records: all `N` slots when full, otherwise the slots from
`out_offs` inclusive to `in_offs` exclusive, walking forward modulo `N`. -/
def live_count (N : Nat) (b : aesd_circular_buffer) : Nat :=
  if b.full then N else (b.in_offs + N - b.out_offs) % N

/-- Slot of the `j`-th live record, counted from the oldest. -/
def live_slot (N : Nat) (b : aesd_circular_buffer) (j : Nat) : Nat :=
  (b.out_offs + j) % N

/-- The live slots, oldest first. -/
def live_slots (N : Nat) (b : aesd_circular_buffer) : List Nat :=
  (List.range (live_count N b)).map (live_slot N b)

/-- Contents of slot `i` (a zeroed record outside the array). -/
def entry_at (b : aesd_circular_buffer) (i : Nat) : aesd_buffer_entry :=
  b.entry.getD i ⟨0, 0⟩

/-- The live records, oldest first. -/
def live_records (N : Nat) (b : aesd_circular_buffer) : List aesd_buffer_entry :=
  (live_slots N b).map (entry_at b)

/-- Total size of the first `j` live records. -/
def bytes_before (N : Nat) (b : aesd_circular_buffer) (j : Nat) : Nat :=
  (((live_records N b).take j).map aesd_buffer_entry.size).sum

/-- Total size of all live records. -/
def total_bytes (N : Nat) (b : aesd_circular_buffer) : Nat :=
  ((live_records N b).map aesd_buffer_entry.size).sum

instance (N : Nat) : Decidable (Capacity N) := by
  unfold Capacity; infer_instance

instance (N : Nat) (b : aesd_circular_buffer) : Decidable (IndexInv N b) := by
  unfold IndexInv; infer_instance

/-! ## Auxiliary definitions for the proofs -/

/-- The scan of the lookup, told over a list of slots instead of a walking
index: the first slot whose range holds the offset, with the offset inside it. -/
def scan_slots (w : Nat) (b : aesd_circular_buffer) (char_offset : Nat) :
    List Nat → Nat → Option (Nat × Nat)
  | [], _ => none
  | i :: rest, current_offset =>
    if char_offset < size_add w current_offset (entry_at b i).size then
      some (i, size_sub w char_offset current_offset)
    else
      scan_slots w b char_offset rest (size_add w current_offset (entry_at b i).size)

/-- The outcome of the lookup that corresponds to a result of the scan. -/
def lookup_of_scan (b : aesd_circular_buffer) (rtn : Nat) : Option (Nat × Nat) → Lookup
  | some (i, off) => ⟨some b, some i, off⟩
  | none => ⟨some b, none, rtn⟩

/-- Total size of the records held in a list of slots. -/
def slot_bytes (b : aesd_circular_buffer) (L : List Nat) : Nat :=
  (L.map (fun i => (entry_at b i).size)).sum

/-- Scenario 1 of the specification with capacity 4: records of 2, 3 and 1
bytes in a buffer that is not yet full. -/
def scenario_three : aesd_circular_buffer :=
  ⟨[⟨1000, 2⟩, ⟨2000, 3⟩, ⟨3000, 1⟩, ⟨0, 0⟩], 3, 0, false⟩

/-- Scenario 2 of the specification with capacity 4: after two more records of
2 bytes each the buffer is full and the first record has been overwritten. -/
def scenario_wrapped : aesd_circular_buffer :=
  ⟨[⟨5000, 2⟩, ⟨2000, 3⟩, ⟨3000, 1⟩, ⟨4000, 2⟩], 1, 1, true⟩

/-- A buffer of capacity 10 on a 64-bit machine whose two live records have
sizes `2 ^ 64 - 1` and `5`, so that their total does not fit `size_t`. -/
def overflow_buffer : aesd_circular_buffer :=
  ⟨[⟨1000, 2 ^ 64 - 1⟩, ⟨2000, 5⟩, ⟨0, 0⟩, ⟨0, 0⟩, ⟨0, 0⟩, ⟨0, 0⟩, ⟨0, 0⟩, ⟨0, 0⟩,
    ⟨0, 0⟩, ⟨0, 0⟩], 2, 0, false⟩

/-- A full buffer of capacity 3 whose write cursor is not at the oldest record.
Both cursors are in range, but no run of the code from an initialised buffer
leads here. -/
def skewed_full : aesd_circular_buffer :=
  ⟨[⟨1000, 1⟩, ⟨2000, 2⟩, ⟨3000, 3⟩], 1, 0, true⟩

/-- The cursors after `k` insertions into an initialised buffer of capacity `N`. -/
def Closed (N k : Nat) (b : aesd_circular_buffer) : Prop :=
  b.entry.length = N ∧ b.in_offs = k % N ∧ b.full = decide (N ≤ k) ∧
    b.out_offs = if k < N then 0 else k % N

/-- The buffer states that the code can produce: the result of
`aesd_circular_buffer_init`, and whatever a returning call of
`aesd_circular_buffer_add_entry` or of the lookup leaves behind in such a
state. -/
inductive Reachable (N : Nat) : aesd_circular_buffer → Prop where
  | init (b0 : aesd_circular_buffer) : Reachable N (aesd_circular_buffer_init N b0)
  | add {b b' : aesd_circular_buffer} (e : Option aesd_buffer_entry) :
      Reachable N b → aesd_circular_buffer_add_entry N (some b) e = .ok (some b') →
      Reachable N b'
  | find {b b' : aesd_circular_buffer} (w fuel o rtn : Nat) (out : Lookup) :
      Reachable N b →
      aesd_circular_buffer_find_entry_offset_for_fpos w N fuel (some b) o rtn = .ok out →
      out.buffer = some b' → Reachable N b'

/-- Scenario 1 again, with other data in the one slot that is not live. -/
def scenario_three_stale : aesd_circular_buffer :=
  ⟨[⟨1000, 2⟩, ⟨2000, 3⟩, ⟨3000, 1⟩, ⟨9000, 50⟩], 3, 0, false⟩

/-- A buffer of capacity 10 on a 64-bit machine whose two live records have
sizes `2 ^ 64 - 8` and `8`: the second record ends exactly at `2 ^ 64`. -/
def boundary_buffer : aesd_circular_buffer :=
  ⟨[⟨1000, 2 ^ 64 - 8⟩, ⟨2000, 8⟩, ⟨0, 0⟩, ⟨0, 0⟩, ⟨0, 0⟩, ⟨0, 0⟩, ⟨0, 0⟩, ⟨0, 0⟩,
    ⟨0, 0⟩, ⟨0, 0⟩], 2, 0, false⟩

/-- The loop of lines 44-53 once more, returning next to its result the slots
whose body was run, in the order of the visits. -/
def find_loop_full_visits (w N : Nat) (buffer : aesd_circular_buffer) (char_offset : Nat) :
    Nat → Nat → Nat → Except Fault (Option (Nat × Nat)) × List Nat
  | 0, _, _ => (.error Fault.out_of_fuel, [])
  | fuel + 1, index, current_offset =>
    match buffer.entry[index]? with
    | none => (.error Fault.out_of_bounds, [index])
    | some e =>
      let entry_size := e.size
      if char_offset < size_add w current_offset entry_size then
        (.ok (some (index, size_sub w char_offset current_offset)), [index])
      else
        let current_offset := size_add w current_offset entry_size
        let next := next_index N index
        if next ≠ buffer.out_offs then
          ((find_loop_full_visits w N buffer char_offset fuel next current_offset).1,
            index :: (find_loop_full_visits w N buffer char_offset fuel next current_offset).2)
        else
          (.ok none, [index])

/-- The loop of lines 57-66 once more, returning next to its result the slots
whose body was run, in the order of the visits. -/
def find_loop_notfull_visits (w N : Nat) (buffer : aesd_circular_buffer) (char_offset : Nat) :
    Nat → Nat → Nat → Except Fault (Option (Nat × Nat)) × List Nat
  | 0, _, _ => (.error Fault.out_of_fuel, [])
  | fuel + 1, index, current_offset =>
    if index ≠ buffer.in_offs then
      match buffer.entry[index]? with
      | none => (.error Fault.out_of_bounds, [index])
      | some e =>
        let entry_size := e.size
        if char_offset < size_add w current_offset entry_size then
          (.ok (some (index, size_sub w char_offset current_offset)), [index])
        else
          let current_offset := size_add w current_offset entry_size
          let next := next_index N index
          ((find_loop_notfull_visits w N buffer char_offset fuel next current_offset).1,
            index :: (find_loop_notfull_visits w N buffer char_offset fuel next current_offset).2)
    else
      (.ok none, [])

/-- The slots visited by the lookup in a non-null buffer, oldest visit first:
the loop that `full` selects, started as in the source. -/
def find_visits (w N fuel : Nat) (b : aesd_circular_buffer) (char_offset : Nat) : List Nat :=
  if b.full then (find_loop_full_visits w N b char_offset fuel (b.out_offs % 256) 0).2
  else (find_loop_notfull_visits w N b char_offset fuel (b.out_offs % 256) 0).2

/-- The slots that `scan_slots` looks at. -/
def scan_visits (w : Nat) (b : aesd_circular_buffer) (char_offset : Nat) :
    List Nat → Nat → List Nat
  | [], _ => []
  | i :: rest, current_offset =>
    if char_offset < size_add w current_offset (entry_at b i).size then [i]
    else i :: scan_visits w b char_offset rest (size_add w current_offset (entry_at b i).size)

/-- The loop of lines 44-53 with `size_t` replaced by the natural numbers: the
same statements, with `+` and `-` that never wrap. -/
def find_loop_full_unbounded (N : Nat) (buffer : aesd_circular_buffer) (char_offset : Nat) :
    Nat → Nat → Nat → Except Fault (Option (Nat × Nat))
  | 0, _, _ => .error Fault.out_of_fuel
  | fuel + 1, index, current_offset =>
    match buffer.entry[index]? with
    | none => .error Fault.out_of_bounds
    | some e =>
      let entry_size := e.size
      if char_offset < current_offset + entry_size then
        .ok (some (index, char_offset - current_offset))
      else
        let current_offset := current_offset + entry_size
        let index := next_index N index
        if index ≠ buffer.out_offs then
          find_loop_full_unbounded N buffer char_offset fuel index current_offset
        else
          .ok none

/-- The loop of lines 57-66 with `size_t` replaced by the natural numbers. -/
def find_loop_notfull_unbounded (N : Nat) (buffer : aesd_circular_buffer) (char_offset : Nat) :
    Nat → Nat → Nat → Except Fault (Option (Nat × Nat))
  | 0, _, _ => .error Fault.out_of_fuel
  | fuel + 1, index, current_offset =>
    if index ≠ buffer.in_offs then
      match buffer.entry[index]? with
      | none => .error Fault.out_of_bounds
      | some e =>
        let entry_size := e.size
        if char_offset < current_offset + entry_size then
          .ok (some (index, char_offset - current_offset))
        else
          let current_offset := current_offset + entry_size
          let index := next_index N index
          find_loop_notfull_unbounded N buffer char_offset fuel index current_offset
    else
      .ok none

/-- The lookup with `size_t` replaced by the natural numbers: the statements of
`aesd_circular_buffer_find_entry_offset_for_fpos` with arithmetic that never
wraps. -/
def find_entry_offset_unbounded (N fuel : Nat)
    (buffer : Option aesd_circular_buffer) (char_offset : Nat)
    (entry_offset_byte_rtn : Nat) : Except Fault Lookup :=
  match buffer with
  | none => .ok ⟨none, none, entry_offset_byte_rtn⟩
  | some b =>
    let index := b.out_offs % 256
    let current_offset := 0
    let scan :=
      if b.full then find_loop_full_unbounded N b char_offset fuel index current_offset
      else find_loop_notfull_unbounded N b char_offset fuel index current_offset
    match scan with
    | .error f => .error f
    | .ok (some (i, off)) => .ok ⟨some b, some i, off⟩
    | .ok none => .ok ⟨some b, none, entry_offset_byte_rtn⟩

/-- The scan of `scan_slots` with arithmetic that never wraps. -/
def scan_slots_unbounded (b : aesd_circular_buffer) (char_offset : Nat) :
    List Nat → Nat → Option (Nat × Nat)
  | [], _ => none
  | i :: rest, current_offset =>
    if char_offset < current_offset + (entry_at b i).size then
      some (i, char_offset - current_offset)
    else
      scan_slots_unbounded b char_offset rest (current_offset + (entry_at b i).size)

/-- The lookup of the specification over a list of records, oldest first: keep
a running total of the bytes of the records passed; the target is the first
record with the offset in `[running_total, running_total + length)`, and the
offset inside it is `char_offset - running_total`.  The result names the record
by its position in the list, counted from `position`. -/
def fifo_scan (char_offset : Nat) :
    List aesd_buffer_entry → Nat → Nat → Option (Nat × Nat)
  | [], _, _ => none
  | r :: rest, position, running_total =>
    if running_total ≤ char_offset ∧ char_offset < running_total + r.size then
      some (position, char_offset - running_total)
    else
      fifo_scan char_offset rest (position + 1) (running_total + r.size)

/-- The five entries inserted in scenarios 1 and 2 of the specification. -/
def scenario_entries : List aesd_buffer_entry :=
  [⟨1000, 2⟩, ⟨2000, 3⟩, ⟨3000, 1⟩, ⟨4000, 2⟩, ⟨5000, 2⟩]

/-! ## The loops as a scan over the live slots -/


theorem add_mod_wrap {N a j : Nat} (ha : a < N) (hj : j ≤ N) :
    (a + j) % N = if a + j < N then a + j else a + j - N := by
  split_ifs with h
  · exact Nat.mod_eq_of_lt h
  · rw [Nat.mod_eq_sub_mod (by omega), Nat.mod_eq_of_lt (by omega)]

theorem live_slot_lt {N : Nat} (hN : 0 < N) (b : aesd_circular_buffer) (j : Nat) :
    live_slot N b j < N := Nat.mod_lt _ hN

theorem entry_get {b : aesd_circular_buffer} {i : Nat} (h : i < b.entry.length) :
    b.entry[i]? = some (entry_at b i) := by
  simp [entry_at, List.getD_eq_getElem?_getD, List.getElem?_eq_getElem h]

theorem next_index_live_slot {N : Nat} (hN : Capacity N) (b : aesd_circular_buffer) (j : Nat) :
    next_index N (live_slot N b j) = live_slot N b (j + 1) := by
  unfold next_index live_slot
  have h1 : ((b.out_offs + j) % N + 1) % N = (b.out_offs + (j + 1)) % N := by
    rw [← Nat.add_assoc]; simp [Nat.add_mod]
  rw [h1]
  exact Nat.mod_eq_of_lt (lt_of_lt_of_le (Nat.mod_lt _ hN.1) hN.2)

theorem live_slot_eq_out_iff {N : Nat} {b : aesd_circular_buffer} (hout : b.out_offs < N)
    {j : Nat} (hj : 0 < j) (hjN : j ≤ N) : live_slot N b j = b.out_offs ↔ j = N := by
  unfold live_slot
  rw [add_mod_wrap hout hjN]
  split_ifs <;> omega

theorem find_loop_full_eq {w N : Nat} (hN : Capacity N) {b : aesd_circular_buffer}
    (hinv : IndexInv N b) (o : Nat) :
    ∀ (fuel j cur : Nat), j < N → N ≤ fuel + j →
      find_loop_full w N b o fuel (live_slot N b j) cur
        = .ok (scan_slots w b o ((List.range' j (N - j)).map (live_slot N b)) cur) := by
  intro fuel
  induction fuel with
  | zero => intro j cur hj hf; omega
  | succ fuel ih =>
    intro j cur hj hf
    have hlen : live_slot N b j < b.entry.length := by
      rw [hinv.1]; exact live_slot_lt hN.1 b j
    have hr : List.range' j (N - j) = j :: List.range' (j + 1) (N - (j + 1)) := by
      have : N - j = (N - (j + 1)) + 1 := by omega
      rw [this, List.range'_succ]
    rw [hr]
    simp only [find_loop_full, entry_get hlen, List.map_cons, scan_slots]
    split_ifs with hfound hnext
    · rfl
    · have hlt : j + 1 < N := by
        rcases Nat.lt_or_ge (j + 1) N with h | h
        · exact h
        · exfalso; apply hnext
          rw [next_index_live_slot hN]
          exact (live_slot_eq_out_iff hinv.2.2 (by omega) (by omega)).2 (by omega)
      rw [next_index_live_slot hN]
      exact ih (j + 1) _ hlt (by omega)
    · rw [next_index_live_slot hN] at hnext
      have : j + 1 = N := (live_slot_eq_out_iff hinv.2.2 (by omega) (by omega)).1 (not_not.1 hnext)
      simp [this, scan_slots]

theorem live_count_notfull {N : Nat} {b : aesd_circular_buffer} (hinv : IndexInv N b)
    (hf : b.full = false) :
    live_count N b = if b.out_offs ≤ b.in_offs then b.in_offs - b.out_offs
      else b.in_offs + N - b.out_offs := by
  obtain ⟨_, hin, hout⟩ := hinv
  unfold live_count
  simp only [hf, Bool.false_eq_true, if_false]
  split_ifs with h
  · rw [Nat.mod_eq_sub_mod (by omega), Nat.mod_eq_of_lt (by omega)]; omega
  · exact Nat.mod_eq_of_lt (by omega)

theorem live_count_le {N : Nat} {b : aesd_circular_buffer} (hinv : IndexInv N b) :
    live_count N b ≤ N := by
  cases hf : b.full
  · rw [live_count_notfull hinv hf]; have := hinv.2.1; have := hinv.2.2; split_ifs <;> omega
  · simp [live_count, hf]

theorem live_count_lt_of_notfull {N : Nat} {b : aesd_circular_buffer} (hinv : IndexInv N b)
    (hf : b.full = false) : live_count N b < N := by
  rw [live_count_notfull hinv hf]; have := hinv.2.1; have := hinv.2.2; split_ifs <;> omega

theorem live_slot_eq_in_iff {N : Nat} {b : aesd_circular_buffer} (hinv : IndexInv N b)
    (hf : b.full = false) {j : Nat} (hj : j ≤ live_count N b) :
    live_slot N b j = b.in_offs ↔ j = live_count N b := by
  have hlt := live_count_lt_of_notfull hinv hf
  rw [live_count_notfull hinv hf] at hj hlt ⊢
  obtain ⟨_, hin, hout⟩ := hinv
  unfold live_slot
  rw [add_mod_wrap hout (by omega)]
  split_ifs at hj hlt ⊢ <;> omega

theorem find_loop_notfull_eq {w N : Nat} (hN : Capacity N) {b : aesd_circular_buffer}
    (hinv : IndexInv N b) (hf : b.full = false) (o : Nat) :
    ∀ (fuel j cur : Nat), j ≤ live_count N b → live_count N b < fuel + j →
      find_loop_notfull w N b o fuel (live_slot N b j) cur
        = .ok (scan_slots w b o
            ((List.range' j (live_count N b - j)).map (live_slot N b)) cur) := by
  intro fuel
  induction fuel with
  | zero => intro j cur hj hfu; omega
  | succ fuel ih =>
    intro j cur hj hfu
    have hlen : live_slot N b j < b.entry.length := by
      rw [hinv.1]; exact live_slot_lt hN.1 b j
    by_cases hend : j = live_count N b
    · have hin : live_slot N b j = b.in_offs := (live_slot_eq_in_iff hinv hf hj).2 hend
      subst hend
      simp [find_loop_notfull, hin, scan_slots]
    · have hin : live_slot N b j ≠ b.in_offs := fun h => hend ((live_slot_eq_in_iff hinv hf hj).1 h)
      have hr : List.range' j (live_count N b - j)
          = j :: List.range' (j + 1) (live_count N b - (j + 1)) := by
        have : live_count N b - j = (live_count N b - (j + 1)) + 1 := by omega
        rw [this, List.range'_succ]
      rw [hr]
      simp only [find_loop_notfull, hin, ne_eq, not_false_eq_true, if_true, entry_get hlen,
        List.map_cons, scan_slots]
      split_ifs with hfound
      · rfl
      · rw [next_index_live_slot hN]
        exact ih (j + 1) _ (by omega) (by omega)

theorem find_eq_scan {w N : Nat} (hN : Capacity N) {b : aesd_circular_buffer}
    (hinv : IndexInv N b) {fuel : Nat} (hfuel : N ≤ fuel) (o rtn : Nat) :
    aesd_circular_buffer_find_entry_offset_for_fpos w N fuel (some b) o rtn
      = .ok (lookup_of_scan b rtn (scan_slots w b o (live_slots N b) 0)) := by
  have h0 : b.out_offs % 256 = live_slot N b 0 := by
    unfold live_slot
    rw [Nat.add_zero, Nat.mod_eq_of_lt hinv.2.2, Nat.mod_eq_of_lt (by have := hN.2; have := hinv.2.2; omega)]
  unfold aesd_circular_buffer_find_entry_offset_for_fpos
  simp only [h0]
  cases hf : b.full
  · have := find_loop_notfull_eq (w := w) hN hinv hf o fuel 0 0 (Nat.zero_le _)
      (by have := live_count_lt_of_notfull hinv hf; omega)
    simp only [Bool.false_eq_true, if_false, this, Nat.sub_zero, live_slots, List.range_eq_range']
    cases scan_slots w b o (List.map (live_slot N b) (List.range' 0 (live_count N b))) 0 with
    | none => rfl
    | some p => rfl
  · have := find_loop_full_eq (w := w) hN hinv o fuel 0 0 hN.1 (by omega)
    simp only [if_true, this, Nat.sub_zero, live_slots, List.range_eq_range', live_count, hf]
    cases scan_slots w b o (List.map (live_slot N b) (List.range' 0 N)) 0 with
    | none => rfl
    | some p => rfl

theorem slot_bytes_cons (b : aesd_circular_buffer) (i : Nat) (L : List Nat) :
    slot_bytes b (i :: L) = (entry_at b i).size + slot_bytes b L := by
  simp [slot_bytes]

theorem size_add_le (w a c : Nat) : size_add w a c ≤ a + c := Nat.mod_le _ _

theorem size_add_of_lt {w a c : Nat} (h : a + c < 2 ^ w) : size_add w a c = a + c :=
  Nat.mod_eq_of_lt h

theorem size_sub_of_le {w a c : Nat} (hc : c ≤ a) (ha : a < 2 ^ w) : size_sub w a c = a - c := by
  unfold size_sub
  have : a + 2 ^ w - c = (a - c) + 2 ^ w := by omega
  rw [this, Nat.add_mod_right, Nat.mod_eq_of_lt (by omega)]

theorem scan_slots_none (w : Nat) (b : aesd_circular_buffer) (o : Nat) :
    ∀ (L : List Nat) (cur real : Nat), cur ≤ real → real + slot_bytes b L ≤ o →
      scan_slots w b o L cur = none := by
  intro L
  induction L with
  | nil => intro cur real _ _; rfl
  | cons i rest ih =>
    intro cur real hc ho
    rw [slot_bytes_cons] at ho
    have hle := size_add_le w cur (entry_at b i).size
    have hnot : ¬ o < size_add w cur (entry_at b i).size := by omega
    simp only [scan_slots, hnot, if_false]
    exact ih _ (real + (entry_at b i).size) (by omega) (by omega)

theorem scan_slots_found (w : Nat) (b : aesd_circular_buffer) (o : Nat) :
    ∀ (L : List Nat) (cur : Nat), cur + slot_bytes b L < 2 ^ w → cur ≤ o →
      o < cur + slot_bytes b L →
      ∃ j i, L[j]? = some i ∧ cur + slot_bytes b (L.take j) ≤ o ∧
        o < cur + slot_bytes b (L.take j) + (entry_at b i).size ∧
        scan_slots w b o L cur = some (i, o - (cur + slot_bytes b (L.take j))) := by
  intro L
  induction L with
  | nil => intro cur _ hc ho; simp [slot_bytes] at ho; omega
  | cons i rest ih =>
    intro cur hw hc ho
    rw [slot_bytes_cons] at hw ho
    have hadd : size_add w cur (entry_at b i).size = cur + (entry_at b i).size :=
      size_add_of_lt (by omega)
    by_cases hfound : o < cur + (entry_at b i).size
    · refine ⟨0, i, by simp, ?_, ?_, ?_⟩
      · simpa [slot_bytes] using hc
      · simpa [slot_bytes] using hfound
      · simp only [scan_slots, hadd, hfound, if_true, List.take_zero]
        rw [size_sub_of_le hc (by omega)]
        simp [slot_bytes]
    · obtain ⟨j, k, hk, h1, h2, h3⟩ :=
        ih (cur + (entry_at b i).size) (by omega) (by omega) (by omega)
      refine ⟨j + 1, k, by simpa using hk, ?_, ?_, ?_⟩
      · rw [List.take_succ_cons, slot_bytes_cons]; omega
      · rw [List.take_succ_cons, slot_bytes_cons]; omega
      · simp only [scan_slots, hadd, hfound, if_false, List.take_succ_cons, slot_bytes_cons]
        rw [h3]
        congr 2
        omega

theorem slot_bytes_take_succ (b : aesd_circular_buffer) (L : List Nat) (j i : Nat)
    (h : L[j]? = some i) :
    slot_bytes b (L.take (j + 1)) = slot_bytes b (L.take j) + (entry_at b i).size := by
  simp [slot_bytes, List.take_succ, h]

theorem total_bytes_eq (N : Nat) (b : aesd_circular_buffer) :
    total_bytes N b = slot_bytes b (live_slots N b) := by
  simp [total_bytes, slot_bytes, live_records, List.map_map, Function.comp_def]

theorem bytes_before_eq (N : Nat) (b : aesd_circular_buffer) (j : Nat) :
    bytes_before N b j = slot_bytes b ((live_slots N b).take j) := by
  simp [bytes_before, slot_bytes, live_records, List.map_map, Function.comp_def, List.map_take]

theorem live_slots_get {N : Nat} {b : aesd_circular_buffer} {j i : Nat}
    (h : (live_slots N b)[j]? = some i) : j < live_count N b ∧ i = live_slot N b j := by
  unfold live_slots at h
  rw [List.getElem?_map] at h
  rcases hr : (List.range (live_count N b))[j]? with _ | k
  · simp [hr] at h
  · rw [hr] at h
    have hk := List.getElem?_eq_some_iff.1 hr
    obtain ⟨hlt, hkj⟩ := hk
    simp at hlt hkj
    simp at h
    subst hkj
    exact ⟨hlt, h.symm⟩

/-! ## Offset resolution and out-of-range lookups (C1, C2) -/

theorem scenario_three_reached (b0 : aesd_circular_buffer) :
    add_entries 4 (some (aesd_circular_buffer_init 4 b0))
      [some ⟨1000, 2⟩, some ⟨2000, 3⟩, some ⟨3000, 1⟩] = .ok (some scenario_three) := by
  rfl

theorem scenario_wrapped_reached :
    add_entries 4 (some scenario_three) [some ⟨4000, 2⟩, some ⟨5000, 2⟩]
      = .ok (some scenario_wrapped) := by
  decide

/-- C1, as stated, fails when the sizes of the live records add up to `2 ^ w`
or more.  On a 64-bit machine with capacity 10, the buffer holds two live
records of sizes `2 ^ 64 - 1` and `5` (every size and the offset fit `size_t`);
the offset `2 ^ 64 - 1` is below the total `2 ^ 64 + 4` and lies in record 1 at
offset 0, but the lookup returns `NULL` and leaves the output location alone. -/
theorem find_entry_offset_overflow_counterexample :
    Capacity 10 ∧ IndexInv 10 overflow_buffer ∧
    live_records 10 overflow_buffer = [⟨1000, 2 ^ 64 - 1⟩, ⟨2000, 5⟩] ∧
    (2 ^ 64 - 1 < 2 ^ 64 ∧ 5 < 2 ^ 64) ∧
    2 ^ 64 - 1 < total_bytes 10 overflow_buffer ∧
    bytes_before 10 overflow_buffer 1 ≤ 2 ^ 64 - 1 ∧
    2 ^ 64 - 1 < bytes_before 10 overflow_buffer 2 ∧
    aesd_circular_buffer_find_entry_offset_for_fpos 64 10 10 (some overflow_buffer)
        (2 ^ 64 - 1) 77
      = .ok ⟨some overflow_buffer, none, 77⟩ := by
  decide

/-- C1 (amended): in a buffer that satisfies the index invariants and whose
live record sizes add up to less than `2 ^ w`, every offset `o` below the total
is resolved: there is a live record `j` with
`bytes_before j ≤ o < bytes_before (j + 1)`, and the lookup, given at least `N`
iterations, returns the slot of that record and writes `o - bytes_before j` to
the output location. -/
theorem find_entry_offset_resolves {w N : Nat} (hN : Capacity N) {b : aesd_circular_buffer}
    (hinv : IndexInv N b) (hfit : total_bytes N b < 2 ^ w) {o : Nat}
    (ho : o < total_bytes N b) {fuel : Nat} (hfuel : N ≤ fuel) (rtn : Nat) :
    ∃ j, j < live_count N b ∧
      (live_records N b)[j]? = some (entry_at b (live_slot N b j)) ∧
      bytes_before N b j ≤ o ∧ o < bytes_before N b (j + 1) ∧
      aesd_circular_buffer_find_entry_offset_for_fpos w N fuel (some b) o rtn
        = .ok ⟨some b, some (live_slot N b j), o - bytes_before N b j⟩ := by
  rw [total_bytes_eq] at hfit ho
  obtain ⟨j, i, hi, h1, h2, h3⟩ :=
    scan_slots_found w b o (live_slots N b) 0 (by omega) (Nat.zero_le _) (by omega)
  obtain ⟨hj, rfl⟩ := live_slots_get hi
  refine ⟨j, hj, ?_, ?_, ?_, ?_⟩
  · simp [live_records, hi]
  · rw [bytes_before_eq]; omega
  · rw [bytes_before_eq, slot_bytes_take_succ b _ j _ hi]; omega
  · rw [find_eq_scan hN hinv hfuel, h3, bytes_before_eq]
    simp [lookup_of_scan]

/-- C1 at scenario 1 of the specification: offset 3 lies in the second record,
at offset 1. -/
theorem find_entry_offset_resolves_witness :
    Capacity 4 ∧ IndexInv 4 scenario_three ∧ total_bytes 4 scenario_three < 2 ^ 64 ∧
    3 < total_bytes 4 scenario_three ∧ 4 ≤ 4 ∧
    ∃ j, j < live_count 4 scenario_three ∧
      (live_records 4 scenario_three)[j]? = some (entry_at scenario_three (live_slot 4 scenario_three j)) ∧
      bytes_before 4 scenario_three j ≤ 3 ∧ 3 < bytes_before 4 scenario_three (j + 1) ∧
      aesd_circular_buffer_find_entry_offset_for_fpos 64 4 4 (some scenario_three) 3 77
        = .ok ⟨some scenario_three, some (live_slot 4 scenario_three j),
            3 - bytes_before 4 scenario_three j⟩ :=
  ⟨by decide, by decide, by decide, by decide, by decide,
    find_entry_offset_resolves (by decide) (by decide) (by decide) (by decide) (by decide) 77⟩

/-- C2: in a buffer that satisfies the index invariants, every offset at or
beyond the total size of the live records is not found: the lookup, given at
least `N` iterations, returns `NULL` and the output location keeps its prior
value. -/
theorem find_entry_offset_out_of_range {w N : Nat} (hN : Capacity N) {b : aesd_circular_buffer}
    (hinv : IndexInv N b) {o : Nat} (ho : total_bytes N b ≤ o) {fuel : Nat}
    (hfuel : N ≤ fuel) (rtn : Nat) :
    aesd_circular_buffer_find_entry_offset_for_fpos w N fuel (some b) o rtn
      = .ok ⟨some b, none, rtn⟩ := by
  rw [total_bytes_eq] at ho
  rw [find_eq_scan hN hinv hfuel,
    scan_slots_none w b o (live_slots N b) 0 0 (Nat.le_refl _) (by omega)]
  rfl

/-- C2 at scenario 3 of the specification: offset 100 in the wrapped buffer is
not found. -/
theorem find_entry_offset_out_of_range_witness :
    Capacity 4 ∧ IndexInv 4 scenario_wrapped ∧ total_bytes 4 scenario_wrapped ≤ 100 ∧ 4 ≤ 4 ∧
    aesd_circular_buffer_find_entry_offset_for_fpos 64 4 4 (some scenario_wrapped) 100 77
      = .ok ⟨some scenario_wrapped, none, 77⟩ :=
  ⟨by decide, by decide, by decide, by decide,
    find_entry_offset_out_of_range (by decide) (by decide) (by decide) (by decide) 77⟩

/-! ## Insertion into a full buffer whose cursors coincide -/

theorem add_entry_ok (N : Nat) {b : aesd_circular_buffer} (e : aesd_buffer_entry)
    (h : b.in_offs < b.entry.length) :
    aesd_circular_buffer_add_entry N (some b) (some e)
      = .ok (some ⟨b.entry.set b.in_offs e, (b.in_offs + 1) % N,
          if b.full then (b.out_offs + 1) % N else b.out_offs,
          if (b.in_offs + 1) % N = (if b.full then (b.out_offs + 1) % N else b.out_offs)
            then true else b.full⟩) := by
  simp [aesd_circular_buffer_add_entry, h]

theorem entry_at_set_self {l : List aesd_buffer_entry} {i : Nat} (e : aesd_buffer_entry)
    (a c : Nat) (f : Bool) (h : i < l.length) :
    entry_at ⟨l.set i e, a, c, f⟩ i = e := by
  simp [entry_at, List.getD_eq_getElem?_getD, List.getElem?_set, h]

theorem entry_at_set_other {l : List aesd_buffer_entry} {i k : Nat} (e : aesd_buffer_entry)
    (a c a' c' : Nat) (f f' : Bool) (h : k ≠ i) :
    entry_at ⟨l.set i e, a, c, f⟩ k = entry_at ⟨l, a', c', f'⟩ k := by
  simp [entry_at, List.getD_eq_getElem?_getD, List.getElem?_set, Ne.symm h]

theorem live_records_full {N : Nat} {b : aesd_circular_buffer} (hf : b.full = true) :
    live_records N b = (List.range N).map (fun j => entry_at b (live_slot N b j)) := by
  simp [live_records, live_slots, live_count, hf, List.map_map, Function.comp_def]

theorem add_entry_full_live {N : Nat} {b : aesd_circular_buffer} (hinv : IndexInv N b)
    (hf : b.full = true) (hio : b.in_offs = b.out_offs) (e : aesd_buffer_entry) :
    ∃ b', aesd_circular_buffer_add_entry N (some b) (some e) = .ok (some b') ∧
      live_records N b' = (live_records N b).tail ++ [e] := by
  obtain ⟨hlen, hin, hout⟩ := hinv
  refine ⟨_, add_entry_ok N e (by omega), ?_⟩
  obtain ⟨M, rfl⟩ : ∃ M, N = M + 1 := ⟨N - 1, by omega⟩
  have hfull' : (if (b.in_offs + 1) % (M + 1)
      = (if b.full then (b.out_offs + 1) % (M + 1) else b.out_offs) then true else b.full)
      = true := by simp [hf]
  rw [live_records_full hf, live_records_full hfull']
  have hR : ∀ f : Nat → aesd_buffer_entry,
      ((List.range (M + 1)).map f).tail = (List.range M).map (fun j => f (j + 1)) := by
    intro f
    rw [List.range_succ_eq_map]
    simp [Function.comp_def]
  rw [hR, List.range_succ, List.map_append]
  simp only [hf, if_true, List.map_cons, List.map_nil]
  have hslot : ∀ j, ((b.out_offs + 1) % (M + 1) + j) % (M + 1)
      = (b.out_offs + (j + 1)) % (M + 1) := by
    intro j
    rw [Nat.add_mod, Nat.mod_mod, ← Nat.add_mod]
    congr 1; omega
  congr 1
  · apply List.map_congr_left
    intro j hj
    have hjM : j < M := List.mem_range.1 hj
    simp only [live_slot, Function.comp, hslot]
    apply entry_at_set_other
    rw [hio]
    intro h
    have := (live_slot_eq_out_iff (b := b) hout (j := j + 1) (by omega) (by omega)).1 h
    omega
  · have hlast : (b.out_offs + (M + 1)) % (M + 1) = b.in_offs := by
      rw [Nat.add_mod_right, Nat.mod_eq_of_lt hout, hio]
    simp only [live_slot, hslot, hlast]
    rw [entry_at_set_self e _ _ _ (by omega)]

/-- In a full buffer whose cursors are in range but differ the insertion does
not overwrite the oldest record.  With capacity 3, `in_offs = 1` and
`out_offs = 0`, slot 1 is overwritten and the live records afterwards are the new
record, the old slot 2 and the old slot 0.  No run of the code leads to such a
state, see `skewed_full_not_reachable`. -/
theorem add_entry_skewed_full_order :
    IndexInv 3 skewed_full ∧ skewed_full.full = true ∧
    live_records 3 skewed_full = [⟨1000, 1⟩, ⟨2000, 2⟩, ⟨3000, 3⟩] ∧
    aesd_circular_buffer_add_entry 3 (some skewed_full) (some ⟨9000, 9⟩)
      = .ok (some ⟨[⟨1000, 1⟩, ⟨9000, 9⟩, ⟨3000, 3⟩], 2, 1, true⟩) ∧
    live_records 3 ⟨[⟨1000, 1⟩, ⟨9000, 9⟩, ⟨3000, 3⟩], 2, 1, true⟩
      = [⟨9000, 9⟩, ⟨3000, 3⟩, ⟨1000, 1⟩] := by
  decide

/-! ## The cursors after `k` insertions (C4) -/

theorem init_closed {N : Nat} (hN : 0 < N) (b0 : aesd_circular_buffer) :
    Closed N 0 (aesd_circular_buffer_init N b0) := by
  refine ⟨by simp [aesd_circular_buffer_init], by simp [aesd_circular_buffer_init], ?_, ?_⟩
  · have : ¬ N ≤ 0 := by omega
    simp [aesd_circular_buffer_init, this]
  · simp [aesd_circular_buffer_init, hN]

theorem closed_index_inv {N k : Nat} (hN : 0 < N) {b : aesd_circular_buffer}
    (h : Closed N k b) : IndexInv N b := by
  obtain ⟨hlen, hin, _, hout⟩ := h
  refine ⟨hlen, by rw [hin]; exact Nat.mod_lt _ hN, ?_⟩
  rw [hout]; split_ifs
  · exact hN
  · exact Nat.mod_lt _ hN

theorem succ_mod_eq_zero_iff {N k : Nat} (hk : k < N) : (k + 1) % N = 0 ↔ k + 1 = N := by
  constructor
  · intro h
    by_contra hne
    rw [Nat.mod_eq_of_lt (by omega)] at h
    omega
  · intro h; rw [h, Nat.mod_self]

theorem add_entry_closed {N k : Nat} (hN : 0 < N) {b : aesd_circular_buffer}
    (h : Closed N k b) (e : aesd_buffer_entry) :
    ∃ b', aesd_circular_buffer_add_entry N (some b) (some e) = .ok (some b') ∧
      Closed N (k + 1) b' := by
  have hinv := closed_index_inv hN h
  obtain ⟨hlen, hin, hfull, hout⟩ := h
  refine ⟨_, add_entry_ok N e (by rw [hlen]; exact hinv.2.1), ?_⟩
  have hin' : (b.in_offs + 1) % N = (k + 1) % N := by
    rw [hin, Nat.add_mod, Nat.mod_mod, ← Nat.add_mod]
  rcases Nat.lt_or_ge k N with hk | hk
  · have hnf : b.full = false := by rw [hfull]; simpa using hk
    have ho : b.out_offs = 0 := by rw [hout]; simp [hk]
    refine ⟨by simp [hlen], hin', ?_, ?_⟩
    · simp only [hnf, ho, hin', Bool.false_eq_true, if_false]
      by_cases hkN : k + 1 = N
      · have h0 : (k + 1) % N = 0 := (succ_mod_eq_zero_iff hk).2 hkN
        simp [h0, hkN]
      · have h0 : ¬ (k + 1) % N = 0 := fun h => hkN ((succ_mod_eq_zero_iff hk).1 h)
        have : ¬ N ≤ k + 1 := by omega
        simp [h0, this]
    · simp only [hnf, ho, Bool.false_eq_true, if_false]
      split_ifs with h1
      · rfl
      · have : k + 1 = N := by omega
        rw [this, Nat.mod_self]
  · have hf : b.full = true := by rw [hfull]; simpa using hk
    have ho : b.out_offs = k % N := by rw [hout]; simp [Nat.not_lt.2 hk]
    have hout' : (b.out_offs + 1) % N = (k + 1) % N := by
      rw [ho, Nat.add_mod, Nat.mod_mod, ← Nat.add_mod]
    refine ⟨by simp [hlen], hin', ?_, ?_⟩
    · have : N ≤ k + 1 := by omega
      simp [hf, this]
    · have : ¬ k + 1 < N := by omega
      simp [hf, hout', this]

theorem add_entries_closed {N : Nat} (hN : 0 < N) :
    ∀ (es : List aesd_buffer_entry) (k : Nat) (b : aesd_circular_buffer), Closed N k b →
      ∃ b', add_entries N (some b) (es.map some) = .ok (some b') ∧
        Closed N (k + es.length) b' := by
  intro es
  induction es with
  | nil => intro k b h; exact ⟨b, rfl, h⟩
  | cons e es ih =>
    intro k b h
    obtain ⟨b1, h1, hc1⟩ := add_entry_closed hN h e
    obtain ⟨b2, h2, hc2⟩ := ih (k + 1) b1 hc1
    refine ⟨b2, ?_, ?_⟩
    · simp only [List.map_cons, add_entries, h1]; exact h2
    · rw [List.length_cons]
      have : k + (es.length + 1) = k + 1 + es.length := by omega
      rw [this]; exact hc2

theorem closed_live_count {N k : Nat} {b : aesd_circular_buffer}
    (h : Closed N k b) : live_count N b = min k N := by
  obtain ⟨_, hin, hfull, hout⟩ := h
  unfold live_count
  rcases Nat.lt_or_ge k N with hk | hk
  · have hnf : b.full = false := by rw [hfull]; simpa using hk
    have ho : b.out_offs = 0 := by rw [hout]; simp [hk]
    simp only [hnf, ho, hin, Bool.false_eq_true, if_false, Nat.sub_zero]
    rw [Nat.add_mod_right, Nat.mod_mod, Nat.mod_eq_of_lt hk]
    omega
  · have hf : b.full = true := by rw [hfull]; simpa using hk
    simp only [hf, if_true]
    omega

/-- C4: for every `k`, after `aesd_circular_buffer_init` and `k` insertions of
non-null entries (all of which return), the number of live records is
`min k N`. -/
theorem live_count_after_adds {N : Nat} (hN : 0 < N) (b0 : aesd_circular_buffer)
    (es : List aesd_buffer_entry) :
    ∃ b', add_entries N (some (aesd_circular_buffer_init N b0)) (es.map some) = .ok (some b') ∧
      live_count N b' = min es.length N ∧ (live_records N b').length = min es.length N := by
  obtain ⟨b', h1, hc⟩ := add_entries_closed hN es 0 _ (init_closed hN b0)
  rw [Nat.zero_add] at hc
  refine ⟨b', h1, closed_live_count hc, ?_⟩
  simp [live_records, live_slots, closed_live_count hc]

/-- C4 at capacity 4 with five insertions: four records are live. -/
theorem live_count_after_adds_witness :
    0 < 4 ∧
    ∃ b', add_entries 4 (some (aesd_circular_buffer_init 4 skewed_full))
        ([⟨1000, 2⟩, ⟨2000, 3⟩, ⟨3000, 1⟩, ⟨4000, 2⟩, ⟨5000, 2⟩].map some) = .ok (some b') ∧
      live_count 4 b' = min [(⟨1000, 2⟩ : aesd_buffer_entry), ⟨2000, 3⟩, ⟨3000, 1⟩, ⟨4000, 2⟩,
        ⟨5000, 2⟩].length 4 ∧
      (live_records 4 b').length = min [(⟨1000, 2⟩ : aesd_buffer_entry), ⟨2000, 3⟩, ⟨3000, 1⟩,
        ⟨4000, 2⟩, ⟨5000, 2⟩].length 4 :=
  ⟨by decide, live_count_after_adds (by decide) skewed_full _⟩

/-! ## Reset and null arguments (C5, C6) -/

/-- C5: `aesd_circular_buffer_init` applied to any buffer state zeroes every
slot and leaves `in_offs = 0`, `out_offs = 0` and `full = false`; the buffer
then has no live record, and the lookup returns `NULL` for every offset without
touching the output location. -/
theorem init_resets (w N fuel : Nat) (b0 : aesd_circular_buffer) (o rtn : Nat) :
    (aesd_circular_buffer_init N b0).entry = List.replicate N ⟨0, 0⟩ ∧
    (aesd_circular_buffer_init N b0).in_offs = 0 ∧
    (aesd_circular_buffer_init N b0).out_offs = 0 ∧
    (aesd_circular_buffer_init N b0).full = false ∧
    live_count N (aesd_circular_buffer_init N b0) = 0 ∧
    live_records N (aesd_circular_buffer_init N b0) = [] ∧
    aesd_circular_buffer_find_entry_offset_for_fpos w N (fuel + 1)
        (some (aesd_circular_buffer_init N b0)) o rtn
      = .ok ⟨some (aesd_circular_buffer_init N b0), none, rtn⟩ := by
  have hc : live_count N (aesd_circular_buffer_init N b0) = 0 := by
    simp [live_count, aesd_circular_buffer_init]
  refine ⟨rfl, rfl, rfl, rfl, hc, ?_, ?_⟩
  · simp [live_records, live_slots, hc]
  · simp [aesd_circular_buffer_find_entry_offset_for_fpos, aesd_circular_buffer_init,
      find_loop_notfull]

/-- C6: `aesd_circular_buffer_add_entry` with a null entry returns and leaves
the slots, `in_offs`, `out_offs` and `full` as they were, so every later lookup
gives what it gave before the call; with a null buffer it returns and there is
no buffer to change. -/
theorem add_entry_null_noop (N : Nat) (b : aesd_circular_buffer)
    (e : Option aesd_buffer_entry) :
    aesd_circular_buffer_add_entry N (some b) none = .ok (some b) ∧
    (∀ (w fuel o rtn : Nat) (b' : Option aesd_circular_buffer),
      aesd_circular_buffer_add_entry N (some b) none = .ok b' →
      aesd_circular_buffer_find_entry_offset_for_fpos w N fuel b' o rtn
        = aesd_circular_buffer_find_entry_offset_for_fpos w N fuel (some b) o rtn) ∧
    aesd_circular_buffer_add_entry N none e = .ok none := by
  refine ⟨rfl, ?_, ?_⟩
  · intro w fuel o rtn b' h
    have : b' = some b := by
      simp only [aesd_circular_buffer_add_entry] at h
      injection h with h; exact h.symm
    rw [this]
  · cases e <;> rfl

/-! ## The lookup leaves the buffer alone (C7) -/

theorem find_ok_buffer {w N fuel : Nat} {buffer : Option aesd_circular_buffer} {o rtn : Nat}
    {out : Lookup}
    (h : aesd_circular_buffer_find_entry_offset_for_fpos w N fuel buffer o rtn = .ok out) :
    out.buffer = buffer := by
  unfold aesd_circular_buffer_find_entry_offset_for_fpos at h
  cases buffer with
  | none => simp at h; rw [← h]
  | some b =>
    simp only at h
    split at h
    · exact absurd h (by simp)
    · simp at h; rw [← h]
    · simp at h; rw [← h]

theorem find_ok_again {w N fuel : Nat} {buffer : Option aesd_circular_buffer} {o rtn : Nat}
    {out : Lookup}
    (h : aesd_circular_buffer_find_entry_offset_for_fpos w N fuel buffer o rtn = .ok out) :
    aesd_circular_buffer_find_entry_offset_for_fpos w N fuel out.buffer o
      out.entry_offset_byte_rtn = .ok out := by
  rw [find_ok_buffer h]
  unfold aesd_circular_buffer_find_entry_offset_for_fpos at h ⊢
  cases buffer with
  | none => simp at h ⊢; rw [← h]
  | some b =>
    simp only at h ⊢
    split at h
    · exact absurd h (by simp)
    · simp at h; subst h; rfl
    · simp at h; subst h; rfl

theorem find_ok_other_rtn {w N fuel : Nat} {buffer : Option aesd_circular_buffer} {o rtn : Nat}
    {out : Lookup}
    (h : aesd_circular_buffer_find_entry_offset_for_fpos w N fuel buffer o rtn = .ok out)
    (rtn' : Nat) :
    ∃ out', aesd_circular_buffer_find_entry_offset_for_fpos w N fuel buffer o rtn' = .ok out' ∧
      out'.buffer = out.buffer ∧ out'.ret = out.ret ∧
      (out.ret ≠ none → out'.entry_offset_byte_rtn = out.entry_offset_byte_rtn) ∧
      (out.ret = none → out.entry_offset_byte_rtn = rtn ∧ out'.entry_offset_byte_rtn = rtn') := by
  unfold aesd_circular_buffer_find_entry_offset_for_fpos at h ⊢
  cases buffer with
  | none => simp at h ⊢; subst h; simp
  | some b =>
    simp only at h ⊢
    split at h
    · exact absurd h (by simp)
    · simp at h; subst h; simp
    · simp at h; subst h; simp

/-- C7: the lookup does not change the buffer, found or not: whenever a call
returns, the buffer after it (slots, `in_offs`, `out_offs`, `full`) is the
buffer before it, and a second call with the same offset on that buffer returns
the same record and, when a record is found, the same offset within it
(when none is found, each call leaves its output location as it was).  In a
state that satisfies the index invariants the call does return, given `N`
iterations. -/
theorem find_entry_offset_read_only (w N fuel : Nat) (buffer : Option aesd_circular_buffer)
    (o rtn : Nat) :
    (∀ out, aesd_circular_buffer_find_entry_offset_for_fpos w N fuel buffer o rtn = .ok out →
      out.buffer = buffer ∧
      aesd_circular_buffer_find_entry_offset_for_fpos w N fuel out.buffer o
        out.entry_offset_byte_rtn = .ok out ∧
      ∀ rtn', ∃ out',
        aesd_circular_buffer_find_entry_offset_for_fpos w N fuel out.buffer o rtn' = .ok out' ∧
        out'.buffer = buffer ∧ out'.ret = out.ret ∧
        (out.ret ≠ none → out'.entry_offset_byte_rtn = out.entry_offset_byte_rtn) ∧
        (out.ret = none → out.entry_offset_byte_rtn = rtn ∧ out'.entry_offset_byte_rtn = rtn')) ∧
    (∀ b, buffer = some b → Capacity N → IndexInv N b → N ≤ fuel →
      ∃ out, aesd_circular_buffer_find_entry_offset_for_fpos w N fuel buffer o rtn = .ok out) ∧
    (buffer = none →
      ∃ out, aesd_circular_buffer_find_entry_offset_for_fpos w N fuel buffer o rtn = .ok out) := by
  refine ⟨?_, ?_, ?_⟩
  · intro out h
    refine ⟨find_ok_buffer h, find_ok_again h, ?_⟩
    intro rtn'
    obtain ⟨out', h1, h2, h3⟩ := find_ok_other_rtn h rtn'
    rw [find_ok_buffer h]
    exact ⟨out', h1, by rw [h2, find_ok_buffer h], h3⟩
  · intro b hb hN hinv hfuel
    subst hb
    exact ⟨_, find_eq_scan hN hinv hfuel o rtn⟩
  · intro hb
    subst hb
    exact ⟨_, rfl⟩

/-- C7 at scenario 1 of the specification: the lookup of offset 3 returns slot 1
and offset 1 and leaves the buffer as it was. -/
theorem find_entry_offset_read_only_witness :
    aesd_circular_buffer_find_entry_offset_for_fpos 64 4 4 (some scenario_three) 3 77
      = .ok ⟨some scenario_three, some 1, 1⟩ ∧
    (⟨some scenario_three, some 1, 1⟩ : Lookup).buffer = some scenario_three ∧
    aesd_circular_buffer_find_entry_offset_for_fpos 64 4 4
      (⟨some scenario_three, some 1, 1⟩ : Lookup).buffer 3
      (⟨some scenario_three, some 1, 1⟩ : Lookup).entry_offset_byte_rtn
      = .ok ⟨some scenario_three, some 1, 1⟩ :=
  ⟨by decide,
    ((find_entry_offset_read_only 64 4 4 (some scenario_three) 3 77).1 _ (by decide)).1,
    ((find_entry_offset_read_only 64 4 4 (some scenario_three) 3 77).1 _ (by decide)).2.1⟩

/-! ## The cursors stay in range (C8) -/

theorem add_entry_index_inv {N : Nat} (hN : 0 < N) {b : aesd_circular_buffer}
    (hinv : IndexInv N b) (e : Option aesd_buffer_entry) :
    ∃ b', aesd_circular_buffer_add_entry N (some b) e = .ok (some b') ∧ IndexInv N b' := by
  cases e with
  | none => exact ⟨b, rfl, hinv⟩
  | some e =>
    obtain ⟨hlen, hin, hout⟩ := hinv
    refine ⟨_, add_entry_ok N e (by omega), ?_, ?_, ?_⟩
    · simp [hlen]
    · exact Nat.mod_lt _ hN
    · show (if b.full then (b.out_offs + 1) % N else b.out_offs) < N
      split_ifs
      · exact Nat.mod_lt _ hN
      · exact hout

theorem init_index_inv {N : Nat} (hN : 0 < N) (b0 : aesd_circular_buffer) :
    IndexInv N (aesd_circular_buffer_init N b0) :=
  closed_index_inv hN (init_closed hN b0)

theorem reachable_index_inv {N : Nat} (hN : 0 < N) {b : aesd_circular_buffer}
    (h : Reachable N b) : IndexInv N b := by
  induction h with
  | init b0 => exact init_index_inv hN b0
  | add e _ hadd ih =>
    obtain ⟨b'', h1, h2⟩ := add_entry_index_inv hN ih e
    rw [h1] at hadd
    injection hadd with hadd
    injection hadd with hadd
    rw [← hadd]; exact h2
  | find w fuel o rtn out _ hfind hbuf ih =>
    have := find_ok_buffer hfind
    rw [this] at hbuf
    injection hbuf with hbuf
    rw [← hbuf]; exact ih

/-- C8: with a capacity `N > 0`, `in_offs < N` and `out_offs < N` hold after
`aesd_circular_buffer_init`; every `aesd_circular_buffer_add_entry` call on a
buffer where they hold (null entry or not) returns and leaves a buffer where
they hold; the lookup leaves the buffer as it is; hence they hold in every state
reachable from `aesd_circular_buffer_init`, in particular after any run of
insertions, all of which return. -/
theorem index_bounds_invariant {N : Nat} (hN : 0 < N) :
    (∀ b0, (aesd_circular_buffer_init N b0).in_offs < N ∧
      (aesd_circular_buffer_init N b0).out_offs < N) ∧
    (∀ b e, IndexInv N b →
      ∃ b', aesd_circular_buffer_add_entry N (some b) e = .ok (some b') ∧
        b'.entry.length = N ∧ b'.in_offs < N ∧ b'.out_offs < N) ∧
    (∀ w fuel b o rtn out,
      aesd_circular_buffer_find_entry_offset_for_fpos w N fuel (some b) o rtn = .ok out →
      out.buffer = some b) ∧
    (∀ b, Reachable N b → b.in_offs < N ∧ b.out_offs < N) ∧
    (∀ b0 es, ∃ b', add_entries N (some (aesd_circular_buffer_init N b0)) es = .ok (some b') ∧
      Reachable N b' ∧ b'.in_offs < N ∧ b'.out_offs < N) := by
  refine ⟨fun b0 => (init_index_inv hN b0).2, fun b e h => add_entry_index_inv hN h e,
    fun w fuel b o rtn out h => find_ok_buffer h, fun b h => (reachable_index_inv hN h).2, ?_⟩
  intro b0 es
  have key : ∀ (es : List (Option aesd_buffer_entry)) (b : aesd_circular_buffer),
      Reachable N b → ∃ b', add_entries N (some b) es = .ok (some b') ∧ Reachable N b' := by
    intro es
    induction es with
    | nil => intro b hb; exact ⟨b, rfl, hb⟩
    | cons e es ih =>
      intro b hb
      obtain ⟨b1, h1, _⟩ := add_entry_index_inv hN (reachable_index_inv hN hb) e
      obtain ⟨b2, h2, hr⟩ := ih b1 (Reachable.add e hb h1)
      exact ⟨b2, by simp only [add_entries, h1]; exact h2, hr⟩
  obtain ⟨b', h1, hr⟩ := key es _ (Reachable.init b0)
  exact ⟨b', h1, hr, (reachable_index_inv hN hr).2⟩

/-- C8 at capacity 4: the bounds after initialisation and after a run of five
insertions, one of them with a null entry. -/
theorem index_bounds_invariant_witness :
    0 < 4 ∧
    ((aesd_circular_buffer_init 4 skewed_full).in_offs < 4 ∧
      (aesd_circular_buffer_init 4 skewed_full).out_offs < 4) ∧
    ∃ b', add_entries 4 (some (aesd_circular_buffer_init 4 skewed_full))
        [some ⟨1000, 2⟩, some ⟨2000, 3⟩, none, some ⟨3000, 1⟩, some ⟨4000, 2⟩] = .ok (some b') ∧
      Reachable 4 b' ∧ b'.in_offs < 4 ∧ b'.out_offs < 4 :=
  ⟨by decide, (index_bounds_invariant (by decide)).1 skewed_full,
    (index_bounds_invariant (by decide)).2.2.2.2 skewed_full _⟩

/-! ## Only live slots are read (C9, C10) -/

theorem scan_slots_congr (w : Nat) (b1 b2 : aesd_circular_buffer) (o : Nat) :
    ∀ (L : List Nat) (cur : Nat), (∀ i ∈ L, entry_at b1 i = entry_at b2 i) →
      scan_slots w b1 o L cur = scan_slots w b2 o L cur := by
  intro L
  induction L with
  | nil => intro cur _; rfl
  | cons i rest ih =>
    intro cur h
    have hi : entry_at b1 i = entry_at b2 i := h i (List.mem_cons_self _ _)
    simp only [scan_slots, hi]
    rw [ih _ (fun k hk => h k (List.mem_cons_of_mem _ hk))]

theorem scan_slots_mem (w : Nat) (b : aesd_circular_buffer) (o : Nat) :
    ∀ (L : List Nat) (cur i off : Nat), scan_slots w b o L cur = some (i, off) → i ∈ L := by
  intro L
  induction L with
  | nil => intro cur i off h; simp [scan_slots] at h
  | cons k rest ih =>
    intro cur i off h
    simp only [scan_slots] at h
    split_ifs at h
    · simp at h; simp [h.1]
    · exact List.mem_cons_of_mem _ (ih _ _ _ h)

theorem live_slots_congr (N : Nat) {b1 b2 : aesd_circular_buffer}
    (hin : b1.in_offs = b2.in_offs) (hout : b1.out_offs = b2.out_offs)
    (hfull : b1.full = b2.full) : live_slots N b1 = live_slots N b2 := by
  have hs : live_slot N b1 = live_slot N b2 := by funext j; simp [live_slot, hout]
  simp [live_slots, live_count, hin, hout, hfull, hs]

/-- C9: take two buffers that satisfy the index invariants, with the same
`in_offs`, `out_offs` and `full` and the same contents in every live slot.
For every offset the lookup, given `N` iterations, returns in both, with the
same slot (or `NULL` in both) and the same value in the output location,
whatever the slots outside the live set hold; and a slot that is returned is a
live slot. -/
theorem find_entry_offset_ignores_stale {w N : Nat} (hN : Capacity N)
    {b1 b2 : aesd_circular_buffer} (h1 : IndexInv N b1) (h2 : IndexInv N b2)
    (hin : b1.in_offs = b2.in_offs) (hout : b1.out_offs = b2.out_offs)
    (hfull : b1.full = b2.full)
    (hlive : ∀ i ∈ live_slots N b1, entry_at b1 i = entry_at b2 i)
    {fuel : Nat} (hfuel : N ≤ fuel) (o rtn : Nat) :
    ∃ ret off,
      aesd_circular_buffer_find_entry_offset_for_fpos w N fuel (some b1) o rtn
        = .ok ⟨some b1, ret, off⟩ ∧
      aesd_circular_buffer_find_entry_offset_for_fpos w N fuel (some b2) o rtn
        = .ok ⟨some b2, ret, off⟩ ∧
      ∀ i, ret = some i → i ∈ live_slots N b1 := by
  rw [find_eq_scan hN h1 hfuel, find_eq_scan hN h2 hfuel,
    ← live_slots_congr N hin hout hfull, ← scan_slots_congr w b1 b2 o _ 0 hlive]
  rcases hs : scan_slots w b1 o (live_slots N b1) 0 with _ | ⟨i, off⟩
  · exact ⟨none, rtn, rfl, rfl, by simp⟩
  · refine ⟨some i, off, rfl, rfl, ?_⟩
    intro k hk
    injection hk with hk
    subst hk
    exact scan_slots_mem w b1 o _ 0 i off hs

/-- C9 at scenario 1 of the specification: the slot that is not live holds
different data in the two buffers, and the lookup of offset 3 agrees. -/
theorem find_entry_offset_ignores_stale_witness :
    Capacity 4 ∧ IndexInv 4 scenario_three ∧ IndexInv 4 scenario_three_stale ∧
    scenario_three.entry ≠ scenario_three_stale.entry ∧
    (∀ i ∈ live_slots 4 scenario_three,
      entry_at scenario_three i = entry_at scenario_three_stale i) ∧
    ∃ ret off,
      aesd_circular_buffer_find_entry_offset_for_fpos 64 4 4 (some scenario_three) 3 77
        = .ok ⟨some scenario_three, ret, off⟩ ∧
      aesd_circular_buffer_find_entry_offset_for_fpos 64 4 4 (some scenario_three_stale) 3 77
        = .ok ⟨some scenario_three_stale, ret, off⟩ ∧
      ∀ i, ret = some i → i ∈ live_slots 4 scenario_three :=
  ⟨by decide, by decide, by decide, by decide, by decide,
    find_entry_offset_ignores_stale (by decide) (by decide) (by decide) (by decide)
      (by decide) (by decide) (by decide) (by decide) 3 77⟩

/-- C10: called with a null buffer, the lookup returns `NULL` for every offset
and the output location keeps its prior value. -/
theorem find_entry_offset_null_buffer (w N fuel o rtn : Nat) :
    aesd_circular_buffer_find_entry_offset_for_fpos w N fuel none o rtn
      = .ok ⟨none, none, rtn⟩ := rfl

/-! ## Insertion: `full` is never cleared, and the step in detail (C11, C13) -/

theorem add_entry_some_full {N : Nat} {b : aesd_circular_buffer} {e : Option aesd_buffer_entry}
    {x : Option aesd_circular_buffer}
    (h : aesd_circular_buffer_add_entry N (some b) e = .ok x) :
    ∃ b', x = some b' ∧ (b.full = true → b'.full = true) := by
  cases e with
  | none =>
    simp only [aesd_circular_buffer_add_entry] at h
    injection h with h
    exact ⟨b, h.symm, id⟩
  | some e =>
    by_cases hin : b.in_offs < b.entry.length
    · rw [add_entry_ok N e hin] at h
      injection h with h
      refine ⟨_, h.symm, ?_⟩
      intro hf
      simp [hf]
    · simp [aesd_circular_buffer_add_entry, hin] at h

theorem add_entries_keep_full {N : Nat} :
    ∀ (es : List (Option aesd_buffer_entry)) (b b' : aesd_circular_buffer),
      b.full = true → add_entries N (some b) es = .ok (some b') → b'.full = true := by
  intro es
  induction es with
  | nil =>
    intro b b' hf h
    simp only [add_entries] at h
    injection h with h
    injection h with h
    rw [← h]; exact hf
  | cons e es ih =>
    intro b b' hf h
    simp only [add_entries] at h
    split at h
    · exact absurd h (by simp)
    · rename_i x hx
      obtain ⟨b1, rfl, h1⟩ := add_entry_some_full hx
      exact ih b1 b' (h1 hf) h

/-- C11: in a buffer with `full = true`, a call of
`aesd_circular_buffer_add_entry` that returns, with any entry (null or not),
leaves `full = true`, and the call does return when `in_offs` is inside the slot
array; hence a run of insertions never takes `full` from true to false.
`aesd_circular_buffer_init` sets it to false. -/
theorem add_entry_keeps_full (N : Nat) {b : aesd_circular_buffer} (hfull : b.full = true) :
    (∀ e b', aesd_circular_buffer_add_entry N (some b) e = .ok (some b') → b'.full = true) ∧
    (∀ e, b.in_offs < b.entry.length →
      ∃ b', aesd_circular_buffer_add_entry N (some b) e = .ok (some b') ∧ b'.full = true) ∧
    (∀ es b', add_entries N (some b) es = .ok (some b') → b'.full = true) ∧
    (∀ b0, (aesd_circular_buffer_init N b0).full = false) := by
  refine ⟨?_, ?_, ?_, fun _ => rfl⟩
  · intro e b' h
    obtain ⟨b1, h1, h2⟩ := add_entry_some_full h
    injection h1 with h1
    rw [h1]; exact h2 hfull
  · intro e hin
    cases e with
    | none => exact ⟨b, rfl, hfull⟩
    | some e => exact ⟨_, add_entry_ok N e hin, by simp [hfull]⟩
  · intro es b' h
    exact add_entries_keep_full es b b' hfull h

/-- C11 at scenario 2 of the specification: the full buffer stays full through
two more insertions, one of them with a null entry. -/
theorem add_entry_keeps_full_witness :
    scenario_wrapped.full = true ∧
    add_entries 4 (some scenario_wrapped) [some ⟨6000, 7⟩, none]
      = .ok (some ⟨[⟨5000, 2⟩, ⟨6000, 7⟩, ⟨3000, 1⟩, ⟨4000, 2⟩], 2, 2, true⟩) ∧
    (⟨[⟨5000, 2⟩, ⟨6000, 7⟩, ⟨3000, 1⟩, ⟨4000, 2⟩], 2, 2, true⟩ : aesd_circular_buffer).full
      = true :=
  ⟨by decide, by decide,
    (add_entry_keeps_full 4 (b := scenario_wrapped) (by decide)).2.2.1
      [some ⟨6000, 7⟩, none] _ (by decide)⟩

/-- C13: in a buffer that satisfies the index invariants, inserting a non-null
entry `e` returns; afterwards slot `in_offs` (old) holds `e` and every other
slot is as before, `in_offs` is `(in_offs + 1) % N`, `out_offs` is
`(out_offs + 1) % N` if the buffer was full and unchanged otherwise, and `full`
is true exactly when it was true before or the new cursors are equal. -/
theorem add_entry_step {N : Nat} {b : aesd_circular_buffer} (hinv : IndexInv N b)
    (e : aesd_buffer_entry) :
    ∃ b', aesd_circular_buffer_add_entry N (some b) (some e) = .ok (some b') ∧
      b'.entry.length = N ∧
      b'.entry[b.in_offs]? = some e ∧
      (∀ i, i ≠ b.in_offs → b'.entry[i]? = b.entry[i]?) ∧
      b'.in_offs = (b.in_offs + 1) % N ∧
      b'.out_offs = (if b.full = true then (b.out_offs + 1) % N else b.out_offs) ∧
      (b'.full = true ↔ (b.full = true ∨ b'.in_offs = b'.out_offs)) := by
  obtain ⟨hlen, hin, hout⟩ := hinv
  refine ⟨_, add_entry_ok N e (by omega), by simp [hlen], ?_, ?_, rfl, rfl, ?_⟩
  · simp [List.getElem?_set, hlen, hin]
  · intro i hi
    simp [List.getElem?_set, Ne.symm hi]
  · show (if _ then true else b.full) = true ↔ _
    split_ifs with h1 h2 h3 <;> simp [*]

/-- C13 at the skewed full buffer of capacity 3: slot 1 is overwritten, both
cursors advance and the buffer stays full. -/
theorem add_entry_step_witness :
    IndexInv 3 skewed_full ∧
    ∃ b', aesd_circular_buffer_add_entry 3 (some skewed_full) (some ⟨9000, 9⟩) = .ok (some b') ∧
      b'.entry.length = 3 ∧
      b'.entry[skewed_full.in_offs]? = some ⟨9000, 9⟩ ∧
      (∀ i, i ≠ skewed_full.in_offs → b'.entry[i]? = skewed_full.entry[i]?) ∧
      b'.in_offs = (skewed_full.in_offs + 1) % 3 ∧
      b'.out_offs = (if skewed_full.full = true then (skewed_full.out_offs + 1) % 3
        else skewed_full.out_offs) ∧
      (b'.full = true ↔ (skewed_full.full = true ∨ b'.in_offs = b'.out_offs)) :=
  ⟨by decide, add_entry_step (by decide) ⟨9000, 9⟩⟩

/-! ## Filling up and the closed form of the cursors (C14, C18) -/

theorem live_records_eq (N : Nat) (b : aesd_circular_buffer) :
    live_records N b
      = (List.range (live_count N b)).map (fun j => entry_at b (live_slot N b j)) := by
  simp [live_records, live_slots, List.map_map, Function.comp_def]

theorem add_entry_notfull_live {N : Nat} {b : aesd_circular_buffer} (hinv : IndexInv N b)
    (hf : b.full = false) (e : aesd_buffer_entry) :
    ∃ b', aesd_circular_buffer_add_entry N (some b) (some e) = .ok (some b') ∧
      IndexInv N b' ∧
      live_count N b' = live_count N b + 1 ∧
      live_records N b' = live_records N b ++ [e] ∧
      (b'.full = true ↔ b'.in_offs = b'.out_offs) ∧
      (b'.full = true ↔ live_count N b + 1 = N) := by
  have hN : 0 < N := by have := hinv.2.1; omega
  obtain ⟨b', hadd, hinv'⟩ := add_entry_index_inv hN hinv (some e)
  have hb' : b' = ⟨b.entry.set b.in_offs e, (b.in_offs + 1) % N, b.out_offs,
      if (b.in_offs + 1) % N = b.out_offs then true else false⟩ := by
    rw [add_entry_ok N e (by rw [hinv.1]; exact hinv.2.1)] at hadd
    injection hadd with hadd
    injection hadd with hadd
    rw [← hadd]; simp [hf]
  have hcnt := live_count_notfull hinv hf
  have hlt := live_count_lt_of_notfull hinv hf
  have hin1 := add_mod_wrap (N := N) (a := b.in_offs) (j := 1) hinv.2.1 (by omega)
  obtain ⟨hlen, hin, hout⟩ := id hinv
  have hlt' := hlt
  rw [hcnt] at hlt'
  have hfull_iff : b'.full = true ↔ live_count N b + 1 = N := by
    rw [hb', hcnt]
    simp only [hin1]
    split_ifs at hlt' ⊢ <;> simp <;> omega
  have hcount : live_count N b' = live_count N b + 1 := by
    cases hf' : b'.full
    · rw [live_count_notfull hinv' hf', hcnt]
      have hne : ¬ live_count N b + 1 = N := by
        intro h; rw [hfull_iff.2 h] at hf'; exact absurd hf' (by simp)
      rw [hcnt] at hne
      rw [hb']
      simp only [hin1]
      split_ifs at hne hlt' ⊢ <;> omega
    · have := hfull_iff.1 hf'
      have h1 : live_count N b' = N := by simp [live_count, hf']
      rw [h1]; omega
  refine ⟨b', hadd, hinv', hcount, ?_, ?_, hfull_iff⟩
  · rw [live_records_eq N b', hcount, live_records_eq N b, List.range_succ, List.map_append]
    have hslot : ∀ j, live_slot N b' j = live_slot N b j := by
      intro j; rw [hb']; rfl
    simp only [hslot, List.map_cons, List.map_nil]
    congr 1
    · apply List.map_congr_left
      intro j hj
      have hjc : j < live_count N b := List.mem_range.1 hj
      have hne : live_slot N b j ≠ b.in_offs := by
        intro h
        have := (live_slot_eq_in_iff hinv hf (Nat.le_of_lt hjc)).1 h
        omega
      rw [hb']
      exact entry_at_set_other e _ _ b.in_offs b.out_offs _ b.full hne
    · have hc : live_slot N b (live_count N b) = b.in_offs :=
        (live_slot_eq_in_iff hinv hf (Nat.le_refl _)).2 rfl
      rw [hc, hb', entry_at_set_self e _ _ _ (by omega)]
  · rw [hb']
    show (if _ then true else false) = true ↔ _
    split_ifs with h <;> simp [h]

/-- C14: with a capacity `N > 0`, in a buffer that is not full and satisfies the
index invariants, inserting a non-null entry returns and leaves the buffer full
exactly when the new cursors are equal, which is exactly when the buffer held
`N - 1` live records before the call; and after `aesd_circular_buffer_init` and
`k` insertions of non-null entries the buffer is full exactly when `N ≤ k`, so
`full` first becomes true on the `N`-th insertion. -/
theorem full_exactly_at_capacity {N : Nat} (hN : 0 < N) :
    (∀ b e, IndexInv N b → b.full = false →
      ∃ b', aesd_circular_buffer_add_entry N (some b) (some e) = .ok (some b') ∧
        (b'.full = true ↔ b'.in_offs = b'.out_offs) ∧
        (b'.in_offs = b'.out_offs ↔ live_count N b = N - 1)) ∧
    (∀ b0 (es : List aesd_buffer_entry),
      ∃ b', add_entries N (some (aesd_circular_buffer_init N b0)) (es.map some)
        = .ok (some b') ∧ (b'.full = true ↔ N ≤ es.length)) := by
  constructor
  · intro b e hinv hf
    obtain ⟨b', h1, _, _, _, h2, h3⟩ := add_entry_notfull_live hinv hf e
    refine ⟨b', h1, h2, ?_⟩
    rw [← h2, h3]
    omega
  · intro b0 es
    obtain ⟨b', h1, hc⟩ := add_entries_closed hN es 0 _ (init_closed hN b0)
    refine ⟨b', h1, ?_⟩
    rw [hc.2.2.1]
    simp

/-- C14 at capacity 4: the fourth insertion fills the buffer of scenario 1, and
three insertions after initialisation do not. -/
theorem full_exactly_at_capacity_witness :
    0 < 4 ∧ IndexInv 4 scenario_three ∧ scenario_three.full = false ∧
    (∃ b', aesd_circular_buffer_add_entry 4 (some scenario_three) (some ⟨4000, 2⟩)
        = .ok (some b') ∧
      (b'.full = true ↔ b'.in_offs = b'.out_offs) ∧
      (b'.in_offs = b'.out_offs ↔ live_count 4 scenario_three = 4 - 1)) ∧
    live_count 4 scenario_three = 4 - 1 :=
  ⟨by decide, by decide, by decide,
    (full_exactly_at_capacity (by decide)).1 scenario_three ⟨4000, 2⟩ (by decide) (by decide),
    by decide⟩

theorem reachable_full_cursors {N : Nat} (hN : 0 < N) {b : aesd_circular_buffer}
    (h : Reachable N b) : b.full = true → b.in_offs = b.out_offs := by
  induction h with
  | init b0 => intro hf; exact absurd hf (by simp [aesd_circular_buffer_init])
  | @add b b' e hr hadd ih =>
    have hinv := reachable_index_inv hN hr
    cases e with
    | none =>
      simp only [aesd_circular_buffer_add_entry] at hadd
      injection hadd with hadd
      injection hadd with hadd
      rw [← hadd]; exact ih
    | some e =>
      rw [add_entry_ok N e (by rw [hinv.1]; exact hinv.2.1)] at hadd
      injection hadd with hadd
      injection hadd with hadd
      rw [← hadd]
      intro hf'
      cases hf : b.full
      · simp only [hf, Bool.false_eq_true, if_false] at hf' ⊢
        by_contra hne
        simp [hne] at hf'
      · simp only [hf, if_true]
        rw [ih hf]
  | find w fuel o rtn out _ hfind hbuf ih =>
    have := find_ok_buffer hfind
    rw [this] at hbuf
    injection hbuf with hbuf
    rw [← hbuf]; exact ih

/-- C18: with a capacity `N > 0`, after `aesd_circular_buffer_init` and `k`
insertions of non-null entries (all of which return), `in_offs = k % N`, `full`
holds exactly when `N ≤ k`, and `out_offs` is `0` if `k < N` and `k % N`
otherwise; and in every reachable state `full` implies `in_offs = out_offs`. -/
theorem cursors_closed_form {N : Nat} (hN : 0 < N) :
    (∀ b0 (es : List aesd_buffer_entry),
      ∃ b', add_entries N (some (aesd_circular_buffer_init N b0)) (es.map some)
          = .ok (some b') ∧
        b'.in_offs = es.length % N ∧
        b'.full = decide (N ≤ es.length) ∧
        b'.out_offs = (if es.length < N then 0 else es.length % N)) ∧
    (∀ b, Reachable N b → b.full = true → b.in_offs = b.out_offs) := by
  constructor
  · intro b0 es
    obtain ⟨b', h1, hc⟩ := add_entries_closed hN es 0 _ (init_closed hN b0)
    rw [Nat.zero_add] at hc
    exact ⟨b', h1, hc.2⟩
  · intro b hr
    exact reachable_full_cursors hN hr

/-- C18 at capacity 4 with five insertions: both cursors are at `5 % 4` and the
buffer is full. -/
theorem cursors_closed_form_witness :
    0 < 4 ∧
    ∃ b', add_entries 4 (some (aesd_circular_buffer_init 4 skewed_full))
        ([⟨1000, 2⟩, ⟨2000, 3⟩, ⟨3000, 1⟩, ⟨4000, 2⟩, ⟨5000, 2⟩].map some) = .ok (some b') ∧
      b'.in_offs = [(⟨1000, 2⟩ : aesd_buffer_entry), ⟨2000, 3⟩, ⟨3000, 1⟩, ⟨4000, 2⟩,
        ⟨5000, 2⟩].length % 4 ∧
      b'.full = decide (4 ≤ [(⟨1000, 2⟩ : aesd_buffer_entry), ⟨2000, 3⟩, ⟨3000, 1⟩, ⟨4000, 2⟩,
        ⟨5000, 2⟩].length) ∧
      b'.out_offs = (if [(⟨1000, 2⟩ : aesd_buffer_entry), ⟨2000, 3⟩, ⟨3000, 1⟩, ⟨4000, 2⟩,
        ⟨5000, 2⟩].length < 4 then 0
        else [(⟨1000, 2⟩ : aesd_buffer_entry), ⟨2000, 3⟩, ⟨3000, 1⟩, ⟨4000, 2⟩,
          ⟨5000, 2⟩].length % 4) :=
  ⟨by decide, (cursors_closed_form (by decide)).1 skewed_full _⟩

/-! ## Record boundaries (C12) -/

theorem scan_slots_at (w : Nat) (b : aesd_circular_buffer) (o : Nat) :
    ∀ (L : List Nat) (cur j i : Nat), L[j]? = some i →
      cur + slot_bytes b (L.take j) + (entry_at b i).size < 2 ^ w →
      cur + slot_bytes b (L.take j) ≤ o →
      o < cur + slot_bytes b (L.take j) + (entry_at b i).size →
      scan_slots w b o L cur = some (i, o - (cur + slot_bytes b (L.take j))) := by
  intro L
  induction L with
  | nil => intro cur j i h; simp at h
  | cons k rest ih =>
    intro cur j i hi hw hlo hhi
    cases j with
    | zero =>
      simp at hi
      subst hi
      simp only [List.take_zero, slot_bytes, List.map_nil, List.sum_nil, Nat.add_zero] at hw hlo hhi ⊢
      simp only [scan_slots, size_add_of_lt hw, hhi, if_true]
      rw [size_sub_of_le hlo (by omega)]
    | succ j =>
      simp only [List.getElem?_cons_succ] at hi
      rw [List.take_succ_cons, slot_bytes_cons] at hw hlo hhi ⊢
      have hadd : size_add w cur (entry_at b k).size = cur + (entry_at b k).size :=
        size_add_of_lt (by omega)
      have hnot : ¬ o < cur + (entry_at b k).size := by omega
      simp only [scan_slots, hadd, hnot, if_false]
      rw [ih (cur + (entry_at b k).size) j i hi (by omega) (by omega) (by omega)]
      congr 2
      omega

theorem live_slots_getElem? {N : Nat} {b : aesd_circular_buffer} {j : Nat}
    (hj : j < live_count N b) : (live_slots N b)[j]? = some (live_slot N b j) := by
  simp [live_slots, List.getElem?_map, List.getElem?_range hj]

/-- C12, as stated, fails when a record ends at `2 ^ w` or beyond.  On a 64-bit
machine with capacity 10, the live records have sizes `2 ^ 64 - 8` and `8`, so
`2 ^ 64 - 8` bytes precede record 1.  The offsets `2 ^ 64 - 8` and
`2 ^ 64 - 8 + 8 - 1`, the first and the last byte of record 1, both fit `size_t`,
and for both the lookup returns `NULL`. -/
theorem boundary_overflow_counterexample :
    Capacity 10 ∧ IndexInv 10 boundary_buffer ∧
    live_records 10 boundary_buffer = [⟨1000, 2 ^ 64 - 8⟩, ⟨2000, 8⟩] ∧
    bytes_before 10 boundary_buffer 1 = 2 ^ 64 - 8 ∧
    (2 ^ 64 - 8 < 2 ^ 64 ∧ 2 ^ 64 - 8 + 8 - 1 < 2 ^ 64) ∧
    aesd_circular_buffer_find_entry_offset_for_fpos 64 10 10 (some boundary_buffer)
        (2 ^ 64 - 8) 77
      = .ok ⟨some boundary_buffer, none, 77⟩ ∧
    aesd_circular_buffer_find_entry_offset_for_fpos 64 10 10 (some boundary_buffer)
        (2 ^ 64 - 8 + 8 - 1) 77
      = .ok ⟨some boundary_buffer, none, 77⟩ := by
  decide

/-- C12 (amended): in a buffer that satisfies the index invariants, let `j` be
a live record of size `l > 0` preceded by `S` bytes of live records, with
`S + l < 2 ^ w`.  Then offset `S` resolves to record `j` with offset 0, offset
`S + l - 1` resolves to record `j` with offset `l - 1`, and every offset `o`
with `S ≤ o < S + l` resolves to record `j` with offset `o - S`. -/
theorem find_entry_offset_boundary {w N : Nat} (hN : Capacity N) {b : aesd_circular_buffer}
    (hinv : IndexInv N b) {j : Nat} (hj : j < live_count N b)
    (hpos : 0 < (entry_at b (live_slot N b j)).size)
    (hfit : bytes_before N b j + (entry_at b (live_slot N b j)).size < 2 ^ w)
    {fuel : Nat} (hfuel : N ≤ fuel) (rtn : Nat) :
    aesd_circular_buffer_find_entry_offset_for_fpos w N fuel (some b)
        (bytes_before N b j) rtn
      = .ok ⟨some b, some (live_slot N b j), 0⟩ ∧
    aesd_circular_buffer_find_entry_offset_for_fpos w N fuel (some b)
        (bytes_before N b j + (entry_at b (live_slot N b j)).size - 1) rtn
      = .ok ⟨some b, some (live_slot N b j), (entry_at b (live_slot N b j)).size - 1⟩ ∧
    ∀ o, bytes_before N b j ≤ o →
      o < bytes_before N b j + (entry_at b (live_slot N b j)).size →
      aesd_circular_buffer_find_entry_offset_for_fpos w N fuel (some b) o rtn
        = .ok ⟨some b, some (live_slot N b j), o - bytes_before N b j⟩ := by
  have key : ∀ o, bytes_before N b j ≤ o →
      o < bytes_before N b j + (entry_at b (live_slot N b j)).size →
      aesd_circular_buffer_find_entry_offset_for_fpos w N fuel (some b) o rtn
        = .ok ⟨some b, some (live_slot N b j), o - bytes_before N b j⟩ := by
    intro o h1 h2
    rw [bytes_before_eq] at h1 h2 hfit
    rw [find_eq_scan hN hinv hfuel,
      scan_slots_at w b o (live_slots N b) 0 j _ (live_slots_getElem? hj)
        (by omega) (by omega) (by omega), bytes_before_eq]
    simp [lookup_of_scan]
  refine ⟨?_, ?_, key⟩
  · have := key (bytes_before N b j) (Nat.le_refl _) (by omega)
    rw [this, Nat.sub_self]
  · have := key (bytes_before N b j + (entry_at b (live_slot N b j)).size - 1)
      (by omega) (by omega)
    have hsub : bytes_before N b j + (entry_at b (live_slot N b j)).size - 1
        - bytes_before N b j = (entry_at b (live_slot N b j)).size - 1 := by omega
    rw [this, hsub]

/-- C12 at scenario 1 of the specification: the second record has 3 bytes and is
preceded by 2; offset 2 is its first byte and offset 4 its last. -/
theorem find_entry_offset_boundary_witness :
    Capacity 4 ∧ IndexInv 4 scenario_three ∧ 1 < live_count 4 scenario_three ∧
    bytes_before 4 scenario_three 1 = 2 ∧
    (entry_at scenario_three (live_slot 4 scenario_three 1)).size = 3 ∧
    aesd_circular_buffer_find_entry_offset_for_fpos 64 4 4 (some scenario_three)
        (bytes_before 4 scenario_three 1) 77
      = .ok ⟨some scenario_three, some (live_slot 4 scenario_three 1), 0⟩ ∧
    aesd_circular_buffer_find_entry_offset_for_fpos 64 4 4 (some scenario_three)
        (bytes_before 4 scenario_three 1
          + (entry_at scenario_three (live_slot 4 scenario_three 1)).size - 1) 77
      = .ok ⟨some scenario_three, some (live_slot 4 scenario_three 1),
          (entry_at scenario_three (live_slot 4 scenario_three 1)).size - 1⟩ :=
  ⟨by decide, by decide, by decide, by decide, by decide,
    (find_entry_offset_boundary (w := 64) (by decide) (by decide) (by decide) (by decide)
      (by decide) (by decide) 77).1,
    (find_entry_offset_boundary (w := 64) (by decide) (by decide) (by decide) (by decide)
      (by decide) (by decide) 77).2.1⟩

/-! ## The returned offset lies inside the record (C17) -/

theorem found_offset_lt {w o cur sz : Nat} (hcur : cur ≤ o) (h : o < size_add w cur sz) :
    size_sub w o cur < sz := by
  have hle := size_add_le w cur sz
  have hpow : 0 < 2 ^ w := Nat.two_pow_pos w
  have hlt : size_add w cur sz < 2 ^ w := Nat.mod_lt _ hpow
  rw [size_sub_of_le hcur (by omega)]
  omega

theorem find_loop_full_bound (w N : Nat) (b : aesd_circular_buffer) (o : Nat) :
    ∀ (fuel index cur i off : Nat), cur ≤ o →
      find_loop_full w N b o fuel index cur = .ok (some (i, off)) →
      ∃ e, b.entry[i]? = some e ∧ off < e.size := by
  intro fuel
  induction fuel with
  | zero => intro index cur i off _ h; simp [find_loop_full] at h
  | succ fuel ih =>
    intro index cur i off hcur h
    simp only [find_loop_full] at h
    split at h
    · exact absurd h (by simp)
    · rename_i e he
      split_ifs at h with hfound hnext
      · simp at h
        obtain ⟨rfl, rfl⟩ := h
        exact ⟨e, he, found_offset_lt hcur hfound⟩
      · exact ih _ _ i off (by omega) h
      · simp at h

theorem find_loop_notfull_bound (w N : Nat) (b : aesd_circular_buffer) (o : Nat) :
    ∀ (fuel index cur i off : Nat), cur ≤ o →
      find_loop_notfull w N b o fuel index cur = .ok (some (i, off)) →
      ∃ e, b.entry[i]? = some e ∧ off < e.size := by
  intro fuel
  induction fuel with
  | zero => intro index cur i off _ h; simp [find_loop_notfull] at h
  | succ fuel ih =>
    intro index cur i off hcur h
    simp only [find_loop_notfull] at h
    split_ifs at h with hne
    · split at h
      · exact absurd h (by simp)
      · rename_i e he
        split_ifs at h with hfound
        · simp at h
          obtain ⟨rfl, rfl⟩ := h
          exact ⟨e, he, found_offset_lt hcur hfound⟩
        · exact ih _ _ i off (by omega) h
    · simp at h

theorem find_ok_bound {w N fuel : Nat} {b : aesd_circular_buffer} {o rtn : Nat} {out : Lookup}
    {i : Nat}
    (h : aesd_circular_buffer_find_entry_offset_for_fpos w N fuel (some b) o rtn = .ok out)
    (hi : out.ret = some i) :
    ∃ e, b.entry[i]? = some e ∧ out.entry_offset_byte_rtn < e.size := by
  unfold aesd_circular_buffer_find_entry_offset_for_fpos at h
  simp only at h
  split at h
  · exact absurd h (by simp)
  · rename_i k off hs
    simp at h
    subst h
    simp at hi
    subst hi
    cases hf : b.full
    · simp only [hf, Bool.false_eq_true, if_false] at hs
      exact find_loop_notfull_bound w N b o _ _ _ _ _ (Nat.zero_le _) hs
    · simp only [hf, if_true] at hs
      exact find_loop_full_bound w N b o _ _ _ _ _ (Nat.zero_le _) hs
  · simp at h
    subst h
    simp at hi

/-- C17: whenever the lookup returns a record, in any buffer state and for any
offset, the slot it points to is inside the array and the offset written to the
output location is strictly below the size of the record in that slot; so a
record of size 0 is never returned.  In a state that satisfies the index
invariants the call does return, given `N` iterations. -/
theorem find_entry_offset_within_record (w N fuel : Nat) (b : aesd_circular_buffer)
    (o rtn : Nat) :
    (∀ out i,
      aesd_circular_buffer_find_entry_offset_for_fpos w N fuel (some b) o rtn = .ok out →
      out.ret = some i →
      ∃ e, b.entry[i]? = some e ∧ out.entry_offset_byte_rtn < e.size ∧ e.size ≠ 0) ∧
    (Capacity N → IndexInv N b → N ≤ fuel →
      ∃ out, aesd_circular_buffer_find_entry_offset_for_fpos w N fuel (some b) o rtn
        = .ok out) := by
  constructor
  · intro out i h hi
    obtain ⟨e, he, hlt⟩ := find_ok_bound h hi
    exact ⟨e, he, hlt, by omega⟩
  · intro hN hinv hfuel
    exact ⟨_, find_eq_scan hN hinv hfuel o rtn⟩

/-- C17 at scenario 1 of the specification: offset 3 gives slot 1, whose record
has 3 bytes, and the offset 1 inside it. -/
theorem find_entry_offset_within_record_witness :
    aesd_circular_buffer_find_entry_offset_for_fpos 64 4 4 (some scenario_three) 3 77
      = .ok ⟨some scenario_three, some 1, 1⟩ ∧
    ∃ e, scenario_three.entry[1]? = some e ∧
      (⟨some scenario_three, some 1, 1⟩ : Lookup).entry_offset_byte_rtn < e.size ∧
      e.size ≠ 0 :=
  ⟨by decide,
    (find_entry_offset_within_record 64 4 4 scenario_three 3 77).1 _ 1 (by decide) rfl⟩

/-! ## The slots visited by the lookup (C15) -/

theorem find_loop_full_visits_fst (w N : Nat) (b : aesd_circular_buffer) (o : Nat) :
    ∀ (fuel index cur : Nat),
      (find_loop_full_visits w N b o fuel index cur).1 = find_loop_full w N b o fuel index cur := by
  intro fuel
  induction fuel with
  | zero => intro index cur; rfl
  | succ fuel ih =>
    intro index cur
    simp only [find_loop_full_visits, find_loop_full]
    split
    · rfl
    · split_ifs
      · rfl
      · exact ih _ _
      · rfl

theorem find_loop_notfull_visits_fst (w N : Nat) (b : aesd_circular_buffer) (o : Nat) :
    ∀ (fuel index cur : Nat),
      (find_loop_notfull_visits w N b o fuel index cur).1
        = find_loop_notfull w N b o fuel index cur := by
  intro fuel
  induction fuel with
  | zero => intro index cur; rfl
  | succ fuel ih =>
    intro index cur
    simp only [find_loop_notfull_visits, find_loop_notfull]
    split_ifs
    · split
      · rfl
      · split_ifs
        · rfl
        · exact ih _ _
    · rfl

theorem find_loop_full_visits_eq {w N : Nat} (hN : Capacity N) {b : aesd_circular_buffer}
    (hinv : IndexInv N b) (o : Nat) :
    ∀ (fuel j cur : Nat), j < N → N ≤ fuel + j →
      (find_loop_full_visits w N b o fuel (live_slot N b j) cur).2
        = scan_visits w b o ((List.range' j (N - j)).map (live_slot N b)) cur := by
  intro fuel
  induction fuel with
  | zero => intro j cur hj hf; omega
  | succ fuel ih =>
    intro j cur hj hf
    have hlen : live_slot N b j < b.entry.length := by
      rw [hinv.1]; exact live_slot_lt hN.1 b j
    have hr : List.range' j (N - j) = j :: List.range' (j + 1) (N - (j + 1)) := by
      have : N - j = (N - (j + 1)) + 1 := by omega
      rw [this, List.range'_succ]
    rw [hr]
    simp only [find_loop_full_visits, entry_get hlen, List.map_cons, scan_visits]
    split_ifs with hfound hnext
    · rfl
    · have hlt : j + 1 < N := by
        rcases Nat.lt_or_ge (j + 1) N with h | h
        · exact h
        · exfalso; apply hnext
          rw [next_index_live_slot hN]
          exact (live_slot_eq_out_iff hinv.2.2 (by omega) (by omega)).2 (by omega)
      rw [next_index_live_slot hN]
      simp only [ih (j + 1) _ hlt (by omega)]
    · rw [next_index_live_slot hN] at hnext
      have : j + 1 = N := (live_slot_eq_out_iff hinv.2.2 (by omega) (by omega)).1 (not_not.1 hnext)
      simp [this, scan_visits]

theorem find_loop_notfull_visits_eq {w N : Nat} (hN : Capacity N) {b : aesd_circular_buffer}
    (hinv : IndexInv N b) (hf : b.full = false) (o : Nat) :
    ∀ (fuel j cur : Nat), j ≤ live_count N b → live_count N b < fuel + j →
      (find_loop_notfull_visits w N b o fuel (live_slot N b j) cur).2
        = scan_visits w b o
            ((List.range' j (live_count N b - j)).map (live_slot N b)) cur := by
  intro fuel
  induction fuel with
  | zero => intro j cur hj hfu; omega
  | succ fuel ih =>
    intro j cur hj hfu
    have hlen : live_slot N b j < b.entry.length := by
      rw [hinv.1]; exact live_slot_lt hN.1 b j
    by_cases hend : j = live_count N b
    · have hin : live_slot N b j = b.in_offs := (live_slot_eq_in_iff hinv hf hj).2 hend
      subst hend
      simp [find_loop_notfull_visits, hin, scan_visits]
    · have hin : live_slot N b j ≠ b.in_offs := fun h => hend ((live_slot_eq_in_iff hinv hf hj).1 h)
      have hr : List.range' j (live_count N b - j)
          = j :: List.range' (j + 1) (live_count N b - (j + 1)) := by
        have : live_count N b - j = (live_count N b - (j + 1)) + 1 := by omega
        rw [this, List.range'_succ]
      rw [hr]
      simp only [find_loop_notfull_visits, hin, ne_eq, not_false_eq_true, if_true, entry_get hlen,
        List.map_cons, scan_visits]
      split_ifs with hfound
      · rfl
      · rw [next_index_live_slot hN]
        simp only [ih (j + 1) _ (by omega) (by omega)]

theorem find_visits_eq_scan {w N : Nat} (hN : Capacity N) {b : aesd_circular_buffer}
    (hinv : IndexInv N b) {fuel : Nat} (hfuel : N ≤ fuel) (o : Nat) :
    find_visits w N fuel b o = scan_visits w b o (live_slots N b) 0 := by
  have h0 : b.out_offs % 256 = live_slot N b 0 := by
    unfold live_slot
    rw [Nat.add_zero, Nat.mod_eq_of_lt hinv.2.2,
      Nat.mod_eq_of_lt (by have := hN.2; have := hinv.2.2; omega)]
  unfold find_visits
  simp only [h0]
  cases hf : b.full
  · have := find_loop_notfull_visits_eq (w := w) hN hinv hf o fuel 0 0 (Nat.zero_le _)
      (by have := live_count_lt_of_notfull hinv hf; omega)
    simp only [Bool.false_eq_true, if_false, this, Nat.sub_zero, live_slots,
      List.range_eq_range']
  · have := find_loop_full_visits_eq (w := w) hN hinv o fuel 0 0 hN.1 (by omega)
    simp only [if_true, this, Nat.sub_zero, live_slots, List.range_eq_range', live_count, hf]

theorem scan_visits_take (w : Nat) (b : aesd_circular_buffer) (o : Nat) :
    ∀ (L : List Nat) (cur : Nat),
      scan_visits w b o L cur = L.take (scan_visits w b o L cur).length := by
  intro L
  induction L with
  | nil => intro cur; rfl
  | cons i rest ih =>
    intro cur
    simp only [scan_visits]
    split_ifs
    · simp
    · simp only [List.length_cons, List.take_succ_cons]
      rw [← ih]

theorem scan_visits_length_le (w : Nat) (b : aesd_circular_buffer) (o : Nat) :
    ∀ (L : List Nat) (cur : Nat), (scan_visits w b o L cur).length ≤ L.length := by
  intro L
  induction L with
  | nil => intro cur; simp [scan_visits]
  | cons i rest ih =>
    intro cur
    simp only [scan_visits]
    split_ifs
    · simp
    · simp only [List.length_cons]
      exact Nat.succ_le_succ (ih _)

theorem live_slot_inj {N : Nat} {b : aesd_circular_buffer} (hout : b.out_offs < N)
    {j k : Nat} (hj : j < N) (hk : k < N) (h : live_slot N b j = live_slot N b k) : j = k := by
  unfold live_slot at h
  rw [add_mod_wrap hout (Nat.le_of_lt hj), add_mod_wrap hout (Nat.le_of_lt hk)] at h
  split_ifs at h <;> omega

theorem live_slots_nodup {N : Nat} {b : aesd_circular_buffer} (hinv : IndexInv N b) :
    (live_slots N b).Nodup := by
  unfold live_slots
  apply List.Nodup.map_on _ (List.nodup_range _)
  intro j hj k hk h
  have hc := live_count_le hinv
  exact live_slot_inj hinv.2.2 (by have := List.mem_range.1 hj; omega)
    (by have := List.mem_range.1 hk; omega) h

/-- C15: in a buffer whose slot array has `N` slots and whose cursors are below
`N`, the lookup returns within `N` iterations for every offset.  The slots it
visits are an initial stretch of the live slots taken oldest first, so no slot
is visited twice and none outside the live set; there are at most `N` visits
when the buffer is full and at most `(in_offs - out_offs) mod N` otherwise.
The loops that record the visits compute the same result as the loops of the
lookup. -/
theorem find_entry_offset_terminates {w N : Nat} (hN : Capacity N) {b : aesd_circular_buffer}
    (hinv : IndexInv N b) {fuel : Nat} (hfuel : N ≤ fuel) (o rtn : Nat) :
    (∃ out, aesd_circular_buffer_find_entry_offset_for_fpos w N fuel (some b) o rtn
      = .ok out) ∧
    (∀ f i c, (find_loop_full_visits w N b o f i c).1 = find_loop_full w N b o f i c) ∧
    (∀ f i c, (find_loop_notfull_visits w N b o f i c).1 = find_loop_notfull w N b o f i c) ∧
    find_visits w N fuel b o = (live_slots N b).take (find_visits w N fuel b o).length ∧
    (b.full = true → (find_visits w N fuel b o).length ≤ N) ∧
    (b.full = false →
      (find_visits w N fuel b o).length ≤ (b.in_offs + N - b.out_offs) % N) ∧
    (live_slots N b).Nodup ∧ (find_visits w N fuel b o).Nodup := by
  have hv := find_visits_eq_scan (w := w) hN hinv hfuel o
  have htake : find_visits w N fuel b o
      = (live_slots N b).take (find_visits w N fuel b o).length := by
    rw [hv]; exact scan_visits_take w b o _ 0
  have hlen : (find_visits w N fuel b o).length ≤ live_count N b := by
    rw [hv]
    have := scan_visits_length_le w b o (live_slots N b) 0
    simpa [live_slots] using this
  refine ⟨⟨_, find_eq_scan hN hinv hfuel o rtn⟩, find_loop_full_visits_fst w N b o,
    find_loop_notfull_visits_fst w N b o, htake, ?_, ?_, live_slots_nodup hinv, ?_⟩
  · intro hf
    simpa [live_count, hf] using hlen
  · intro hf
    simpa [live_count, hf] using hlen
  · rw [htake]
    exact (live_slots_nodup hinv).sublist (List.take_sublist _ _)

/-- C15 at scenario 2 of the specification: in the full buffer of capacity 4 the
lookup of offset 100 visits the four slots 1, 2, 3, 0 and returns. -/
theorem find_entry_offset_terminates_witness :
    Capacity 4 ∧ IndexInv 4 scenario_wrapped ∧ 4 ≤ 4 ∧
    find_visits 64 4 4 scenario_wrapped 100 = [1, 2, 3, 0] ∧
    (scenario_wrapped.full = true → (find_visits 64 4 4 scenario_wrapped 100).length ≤ 4) ∧
    (find_visits 64 4 4 scenario_wrapped 100).Nodup :=
  ⟨by decide, by decide, by decide, by decide,
    (find_entry_offset_terminates (w := 64) (N := 4) (b := scenario_wrapped)
      (by decide) (by decide) (Nat.le_refl 4) 100 77).2.2.2.2.1,
    (find_entry_offset_terminates (w := 64) (N := 4) (b := scenario_wrapped)
      (by decide) (by decide) (Nat.le_refl 4) 100 77).2.2.2.2.2.2.2⟩

/-! ## The lookup in natural-number arithmetic (C19) -/

theorem find_loop_full_unbounded_eq {N : Nat} (hN : Capacity N) {b : aesd_circular_buffer}
    (hinv : IndexInv N b) (o : Nat) :
    ∀ (fuel j cur : Nat), j < N → N ≤ fuel + j →
      find_loop_full_unbounded N b o fuel (live_slot N b j) cur
        = .ok (scan_slots_unbounded b o ((List.range' j (N - j)).map (live_slot N b)) cur) := by
  intro fuel
  induction fuel with
  | zero => intro j cur hj hf; omega
  | succ fuel ih =>
    intro j cur hj hf
    have hlen : live_slot N b j < b.entry.length := by
      rw [hinv.1]; exact live_slot_lt hN.1 b j
    have hr : List.range' j (N - j) = j :: List.range' (j + 1) (N - (j + 1)) := by
      have : N - j = (N - (j + 1)) + 1 := by omega
      rw [this, List.range'_succ]
    rw [hr]
    simp only [find_loop_full_unbounded, entry_get hlen, List.map_cons, scan_slots_unbounded]
    split_ifs with hfound hnext
    · rfl
    · have hlt : j + 1 < N := by
        rcases Nat.lt_or_ge (j + 1) N with h | h
        · exact h
        · exfalso; apply hnext
          rw [next_index_live_slot hN]
          exact (live_slot_eq_out_iff hinv.2.2 (by omega) (by omega)).2 (by omega)
      rw [next_index_live_slot hN]
      exact ih (j + 1) _ hlt (by omega)
    · rw [next_index_live_slot hN] at hnext
      have : j + 1 = N := (live_slot_eq_out_iff hinv.2.2 (by omega) (by omega)).1 (not_not.1 hnext)
      simp [this, scan_slots_unbounded]

theorem find_loop_notfull_unbounded_eq {N : Nat} (hN : Capacity N) {b : aesd_circular_buffer}
    (hinv : IndexInv N b) (hf : b.full = false) (o : Nat) :
    ∀ (fuel j cur : Nat), j ≤ live_count N b → live_count N b < fuel + j →
      find_loop_notfull_unbounded N b o fuel (live_slot N b j) cur
        = .ok (scan_slots_unbounded b o
            ((List.range' j (live_count N b - j)).map (live_slot N b)) cur) := by
  intro fuel
  induction fuel with
  | zero => intro j cur hj hfu; omega
  | succ fuel ih =>
    intro j cur hj hfu
    have hlen : live_slot N b j < b.entry.length := by
      rw [hinv.1]; exact live_slot_lt hN.1 b j
    by_cases hend : j = live_count N b
    · have hin : live_slot N b j = b.in_offs := (live_slot_eq_in_iff hinv hf hj).2 hend
      subst hend
      simp [find_loop_notfull_unbounded, hin, scan_slots_unbounded]
    · have hin : live_slot N b j ≠ b.in_offs := fun h => hend ((live_slot_eq_in_iff hinv hf hj).1 h)
      have hr : List.range' j (live_count N b - j)
          = j :: List.range' (j + 1) (live_count N b - (j + 1)) := by
        have : live_count N b - j = (live_count N b - (j + 1)) + 1 := by omega
        rw [this, List.range'_succ]
      rw [hr]
      simp only [find_loop_notfull_unbounded, hin, ne_eq, not_false_eq_true, if_true,
        entry_get hlen, List.map_cons, scan_slots_unbounded]
      split_ifs with hfound
      · rfl
      · rw [next_index_live_slot hN]
        exact ih (j + 1) _ (by omega) (by omega)

theorem find_unbounded_eq_scan {N : Nat} (hN : Capacity N) {b : aesd_circular_buffer}
    (hinv : IndexInv N b) {fuel : Nat} (hfuel : N ≤ fuel) (o rtn : Nat) :
    find_entry_offset_unbounded N fuel (some b) o rtn
      = .ok (lookup_of_scan b rtn (scan_slots_unbounded b o (live_slots N b) 0)) := by
  have h0 : b.out_offs % 256 = live_slot N b 0 := by
    unfold live_slot
    rw [Nat.add_zero, Nat.mod_eq_of_lt hinv.2.2,
      Nat.mod_eq_of_lt (by have := hN.2; have := hinv.2.2; omega)]
  unfold find_entry_offset_unbounded
  simp only [h0]
  cases hf : b.full
  · have := find_loop_notfull_unbounded_eq hN hinv hf o fuel 0 0 (Nat.zero_le _)
      (by have := live_count_lt_of_notfull hinv hf; omega)
    simp only [Bool.false_eq_true, if_false, this, Nat.sub_zero, live_slots,
      List.range_eq_range']
    cases scan_slots_unbounded b o (List.map (live_slot N b) (List.range' 0 (live_count N b))) 0
      with
    | none => rfl
    | some p => rfl
  · have := find_loop_full_unbounded_eq hN hinv o fuel 0 0 hN.1 (by omega)
    simp only [if_true, this, Nat.sub_zero, live_slots, List.range_eq_range', live_count, hf]
    cases scan_slots_unbounded b o (List.map (live_slot N b) (List.range' 0 N)) 0 with
    | none => rfl
    | some p => rfl

theorem scan_slots_eq_unbounded (w : Nat) (b : aesd_circular_buffer) (o : Nat) :
    ∀ (L : List Nat) (cur : Nat), cur + slot_bytes b L < 2 ^ w → cur ≤ o →
      scan_slots w b o L cur = scan_slots_unbounded b o L cur := by
  intro L
  induction L with
  | nil => intro cur _ _; rfl
  | cons i rest ih =>
    intro cur hw hc
    rw [slot_bytes_cons] at hw
    have hadd : size_add w cur (entry_at b i).size = cur + (entry_at b i).size :=
      size_add_of_lt (by omega)
    simp only [scan_slots, scan_slots_unbounded, hadd]
    split_ifs with hfound
    · rw [size_sub_of_le hc (by omega)]
    · exact ih _ (by omega) (by omega)

/-- C19: with `size_t` taken as `w`-bit arithmetic, in a buffer that satisfies
the index invariants and whose live record sizes add up to less than `2 ^ w`,
the lookup returns, for every offset and given `N` iterations, exactly what the
same statements return when run with natural-number arithmetic: the same
record and the same value in the output location. -/
theorem find_entry_offset_no_wrap {w N : Nat} (hN : Capacity N) {b : aesd_circular_buffer}
    (hinv : IndexInv N b) (hfit : total_bytes N b < 2 ^ w) {fuel : Nat} (hfuel : N ≤ fuel)
    (o rtn : Nat) :
    (∃ out, find_entry_offset_unbounded N fuel (some b) o rtn = .ok out) ∧
    aesd_circular_buffer_find_entry_offset_for_fpos w N fuel (some b) o rtn
      = find_entry_offset_unbounded N fuel (some b) o rtn := by
  rw [total_bytes_eq] at hfit
  refine ⟨⟨_, find_unbounded_eq_scan hN hinv hfuel o rtn⟩, ?_⟩
  rw [find_eq_scan hN hinv hfuel, find_unbounded_eq_scan hN hinv hfuel,
    scan_slots_eq_unbounded w b o _ 0 (by omega) (Nat.zero_le _)]

/-- C19 at scenario 2 of the specification: with 64-bit `size_t` the lookup of
offset 7 in the wrapped buffer agrees with natural-number arithmetic, and both
give slot 0 with offset 1. -/
theorem find_entry_offset_no_wrap_witness :
    Capacity 4 ∧ IndexInv 4 scenario_wrapped ∧ total_bytes 4 scenario_wrapped < 2 ^ 64 ∧
    4 ≤ 4 ∧
    find_entry_offset_unbounded 4 4 (some scenario_wrapped) 7 77
      = .ok ⟨some scenario_wrapped, some 0, 1⟩ ∧
    aesd_circular_buffer_find_entry_offset_for_fpos 64 4 4 (some scenario_wrapped) 7 77
      = find_entry_offset_unbounded 4 4 (some scenario_wrapped) 7 77 :=
  ⟨by decide, by decide, by decide, by decide, by decide,
    (find_entry_offset_no_wrap (by decide) (by decide) (by decide) (by decide) 7 77).2⟩

/-! ## The buffer as a bounded list of records (C16) -/

theorem scan_slots_unbounded_eq_fifo (b : aesd_circular_buffer) (o : Nat) (f : Nat → Nat) :
    ∀ (n j0 cur : Nat), cur ≤ o →
      scan_slots_unbounded b o ((List.range' j0 n).map f) cur
        = (fifo_scan o ((List.range' j0 n).map (fun j => entry_at b (f j))) j0 cur).map
            (fun p => (f p.1, p.2)) := by
  intro n
  induction n with
  | zero => intro j0 cur _; rfl
  | succ n ih =>
    intro j0 cur hc
    simp only [List.range'_succ, List.map_cons, scan_slots_unbounded, fifo_scan]
    by_cases hfound : o < cur + (entry_at b (f j0)).size
    · simp [hfound, hc]
    · have : ¬ (cur ≤ o ∧ o < cur + (entry_at b (f j0)).size) := fun h => hfound h.2
      rw [if_neg hfound, if_neg this]
      exact ih (j0 + 1) (cur + (entry_at b (f j0)).size) (by omega)

theorem fifo_scan_position (o : Nat) :
    ∀ (L : List aesd_buffer_entry) (j0 cur j off : Nat),
      fifo_scan o L j0 cur = some (j, off) → j0 ≤ j ∧ j < j0 + L.length := by
  intro L
  induction L with
  | nil => intro j0 cur j off h; simp [fifo_scan] at h
  | cons r rest ih =>
    intro j0 cur j off h
    simp only [fifo_scan] at h
    split_ifs at h
    · simp at h
      simp only [List.length_cons]
      omega
    · have := ih _ _ _ _ h
      simp only [List.length_cons]
      omega

theorem find_eq_fifo_scan {w N : Nat} (hN : Capacity N) {b : aesd_circular_buffer}
    (hinv : IndexInv N b) (hfit : total_bytes N b < 2 ^ w) {fuel : Nat} (hfuel : N ≤ fuel)
    (o rtn : Nat) :
    aesd_circular_buffer_find_entry_offset_for_fpos w N fuel (some b) o rtn
      = .ok (lookup_of_scan b rtn
          ((fifo_scan o (live_records N b) 0 0).map (fun p => (live_slot N b p.1, p.2)))) := by
  rw [total_bytes_eq] at hfit
  rw [find_eq_scan hN hinv hfuel, scan_slots_eq_unbounded w b o _ 0 (by omega) (Nat.zero_le _),
    live_records_eq, live_slots, List.range_eq_range',
    scan_slots_unbounded_eq_fifo b o (live_slot N b) _ 0 0 (Nat.zero_le _)]

theorem live_records_getElem? {N : Nat} {b : aesd_circular_buffer} {j : Nat}
    (hj : j < (live_records N b).length) :
    (live_records N b)[j]? = some (entry_at b (live_slot N b j)) := by
  have hj' : j < live_count N b := by simpa [live_records, live_slots] using hj
  simp [live_records, List.getElem?_map, live_slots_getElem? hj']

theorem add_entry_fifo {N : Nat} (hN : 0 < N) {b : aesd_circular_buffer}
    {pre : List aesd_buffer_entry} (hc : Closed N pre.length b)
    (hl : live_records N b = pre.drop (pre.length - N)) (e : aesd_buffer_entry) :
    ∃ b', aesd_circular_buffer_add_entry N (some b) (some e) = .ok (some b') ∧
      Closed N (pre ++ [e]).length b' ∧
      live_records N b' = (pre ++ [e]).drop ((pre ++ [e]).length - N) := by
  obtain ⟨b', hadd, hc'⟩ := add_entry_closed hN hc e
  have hinv := closed_index_inv hN hc
  refine ⟨b', hadd, by simpa using hc', ?_⟩
  simp only [List.length_append, List.length_singleton]
  rcases Nat.lt_or_ge pre.length N with hk | hk
  · have hnf : b.full = false := by rw [hc.2.2.1]; simpa using hk
    obtain ⟨b'', hadd', _, _, hlive, _⟩ := add_entry_notfull_live hinv hnf e
    rw [hadd] at hadd'
    injection hadd' with hadd'
    injection hadd' with hadd'
    subst hadd'
    rw [hlive, hl]
    have h1 : pre.length - N = 0 := by omega
    have h2 : pre.length + 1 - N = 0 := by omega
    rw [h1, h2, List.drop_zero, List.drop_zero]
  · have hf : b.full = true := by rw [hc.2.2.1]; simpa using hk
    have hio : b.in_offs = b.out_offs := by
      rw [hc.2.1, hc.2.2.2]; simp [Nat.not_lt.2 hk]
    obtain ⟨b'', hadd', hlive⟩ := add_entry_full_live hinv hf hio e
    rw [hadd] at hadd'
    injection hadd' with hadd'
    injection hadd' with hadd'
    subst hadd'
    rw [hlive, hl, List.tail_drop, List.drop_append_of_le_length (by omega)]
    congr 2
    omega

theorem add_entries_fifo {N : Nat} (hN : 0 < N) :
    ∀ (es pre : List aesd_buffer_entry) (b : aesd_circular_buffer),
      Closed N pre.length b → live_records N b = pre.drop (pre.length - N) →
      ∃ b', add_entries N (some b) (es.map some) = .ok (some b') ∧
        Closed N (pre ++ es).length b' ∧
        live_records N b' = (pre ++ es).drop ((pre ++ es).length - N) := by
  intro es
  induction es with
  | nil => intro pre b hc hl; exact ⟨b, rfl, by simpa using hc, by simpa using hl⟩
  | cons e es ih =>
    intro pre b hc hl
    obtain ⟨b1, h1, hc1, hl1⟩ := add_entry_fifo hN hc hl e
    obtain ⟨b2, h2, hc2, hl2⟩ := ih (pre ++ [e]) b1 hc1 hl1
    refine ⟨b2, ?_, ?_, ?_⟩
    · simp only [List.map_cons, add_entries, h1]; exact h2
    · simpa using hc2
    · simpa using hl2

theorem init_live_records {N : Nat} (b0 : aesd_circular_buffer) :
    live_records N (aesd_circular_buffer_init N b0) = [] := by
  have hc : live_count N (aesd_circular_buffer_init N b0) = 0 := by
    simp [live_count, aesd_circular_buffer_init]
  simp [live_records, live_slots, hc]

/-- C16, as stated, fails when the sizes of the retained entries add up to
`2 ^ w` or more.  On a 64-bit machine with capacity 10, two insertions of sizes
`2 ^ 64 - 1` and `5` after initialisation give a buffer whose live records are
these two entries; the offset scan over that list places offset `2 ^ 64 - 1` in
the second entry at offset 0, but the lookup on the buffer returns `NULL`. -/
theorem fifo_refinement_overflow_counterexample :
    Capacity 10 ∧
    add_entries 10 (some (aesd_circular_buffer_init 10 skewed_full))
        ([⟨1000, 2 ^ 64 - 1⟩, ⟨2000, 5⟩].map some)
      = .ok (some overflow_buffer) ∧
    live_records 10 overflow_buffer = [⟨1000, 2 ^ 64 - 1⟩, ⟨2000, 5⟩] ∧
    fifo_scan (2 ^ 64 - 1) [⟨1000, 2 ^ 64 - 1⟩, ⟨2000, 5⟩] 0 0 = some (1, 0) ∧
    aesd_circular_buffer_find_entry_offset_for_fpos 64 10 10 (some overflow_buffer)
        (2 ^ 64 - 1) 77
      = .ok ⟨some overflow_buffer, none, 77⟩ := by
  decide

/-- C16 (amended): after `aesd_circular_buffer_init` and the insertion of the
non-null entries `es`, all of which return, the live records of the buffer,
oldest first, are the last `min k N` entries of `es` in insertion order
(`k` the length of `es`).  If the sizes of these entries add up to less than
`2 ^ w`, then for every offset the lookup, given `N` iterations, agrees with the
offset scan of the specification over that list: both find nothing, or the scan
finds the entry at position `j` with some offset and the lookup returns the slot
of the `j`-th live record, which holds that entry, with the same offset. -/
theorem fifo_refinement {w N : Nat} (hN : Capacity N) (b0 : aesd_circular_buffer)
    (es : List aesd_buffer_entry) :
    ∃ b', add_entries N (some (aesd_circular_buffer_init N b0)) (es.map some) = .ok (some b') ∧
      live_records N b' = es.drop (es.length - min es.length N) ∧
      (((es.drop (es.length - min es.length N)).map aesd_buffer_entry.size).sum < 2 ^ w →
        ∀ fuel, N ≤ fuel → ∀ o rtn,
          (fifo_scan o (es.drop (es.length - min es.length N)) 0 0 = none →
            aesd_circular_buffer_find_entry_offset_for_fpos w N fuel (some b') o rtn
              = .ok ⟨some b', none, rtn⟩) ∧
          (∀ j off, fifo_scan o (es.drop (es.length - min es.length N)) 0 0 = some (j, off) →
            (es.drop (es.length - min es.length N))[j]?
              = some (entry_at b' (live_slot N b' j)) ∧
            aesd_circular_buffer_find_entry_offset_for_fpos w N fuel (some b') o rtn
              = .ok ⟨some b', some (live_slot N b' j), off⟩)) := by
  obtain ⟨b', hadd, hc, hl⟩ := add_entries_fifo hN.1 es [] _
    (by simpa using init_closed hN.1 b0) (by simp [init_live_records])
  have hidx : es.length - min es.length N = es.length - N := by omega
  simp only [List.nil_append] at hc hl
  rw [hidx, ← hl]
  refine ⟨b', hadd, rfl, ?_⟩
  intro hfit fuel hfuel o rtn
  have hinv := closed_index_inv hN.1 hc
  have hfind := find_eq_fifo_scan hN hinv (by simpa [total_bytes] using hfit) hfuel o rtn
  constructor
  · intro hnone
    rw [hfind, hnone]; rfl
  · intro j off hsome
    have hpos := fifo_scan_position o _ _ _ _ _ hsome
    refine ⟨live_records_getElem? (by omega), ?_⟩
    rw [hfind, hsome]; rfl

/-- C16 at capacity 4 with the five insertions of scenario 2 of the
specification and 64-bit `size_t`: the last four entries are live, and offset 3
is the first byte of the second of them, for the list scan and for the lookup. -/
theorem fifo_refinement_witness :
    Capacity 4 ∧
    ((scenario_entries.drop (scenario_entries.length - min scenario_entries.length 4)).map
      aesd_buffer_entry.size).sum < 2 ^ 64 ∧
    fifo_scan 3 (scenario_entries.drop (scenario_entries.length - min scenario_entries.length 4))
      0 0 = some (1, 0) ∧
    ∃ b', add_entries 4 (some (aesd_circular_buffer_init 4 skewed_full))
        (scenario_entries.map some) = .ok (some b') ∧
      live_records 4 b'
        = scenario_entries.drop (scenario_entries.length - min scenario_entries.length 4) ∧
      (scenario_entries.drop (scenario_entries.length - min scenario_entries.length 4))[1]?
        = some (entry_at b' (live_slot 4 b' 1)) ∧
      aesd_circular_buffer_find_entry_offset_for_fpos 64 4 4 (some b') 3 77
        = .ok ⟨some b', some (live_slot 4 b' 1), 0⟩ :=
  ⟨by decide, by decide, by decide,
    (fifo_refinement (w := 64) (by decide) skewed_full scenario_entries).imp
      (fun _ h => ⟨h.1, h.2.1,
        ((h.2.2 (by decide) 4 (by decide) 3 77).2 1 0 (by decide)).1,
        ((h.2.2 (by decide) 4 (by decide) 3 77).2 1 0 (by decide)).2⟩)⟩

/-! ## Insertion into a full buffer (C3) -/

theorem reachable_add_entries {N : Nat} :
    ∀ (es : List (Option aesd_buffer_entry)) (b b' : aesd_circular_buffer),
      Reachable N b → add_entries N (some b) es = .ok (some b') → Reachable N b' := by
  intro es
  induction es with
  | nil =>
    intro b b' hr h
    simp only [add_entries] at h
    injection h with h
    injection h with h
    rw [← h]; exact hr
  | cons e es ih =>
    intro b b' hr h
    simp only [add_entries] at h
    split at h
    · exact absurd h (by simp)
    · rename_i x hx
      obtain ⟨b1, rfl, _⟩ := add_entry_some_full hx
      exact ih b1 b' (Reachable.add e hr hx) h

theorem scenario_wrapped_reachable : Reachable 4 scenario_wrapped :=
  reachable_add_entries _ _ _
    (reachable_add_entries _ _ _ (Reachable.init scenario_three)
      (scenario_three_reached scenario_three))
    scenario_wrapped_reached

theorem skewed_full_not_reachable : ¬ Reachable 3 skewed_full := by
  intro h
  have := reachable_full_cursors (by decide) h (by decide)
  exact absurd this (by decide)

/-- C3: with a capacity `N > 0`, take a full buffer state of the code, that is
one reached from `aesd_circular_buffer_init` by calls of
`aesd_circular_buffer_add_entry` and of the lookup.  It satisfies the index
invariants and has `N` live records `r_0, ..., r_{N-1}`; inserting a non-null
entry `e` returns, and the live records afterwards are `r_1, ..., r_{N-1}, e`:
the former live records without the oldest one, in the same order, followed by
`e`. -/
theorem add_entry_overwrites_oldest {N : Nat} (hN : 0 < N) {b : aesd_circular_buffer}
    (hr : Reachable N b) (hfull : b.full = true) (e : aesd_buffer_entry) :
    IndexInv N b ∧
    ∃ b', aesd_circular_buffer_add_entry N (some b) (some e) = .ok (some b') ∧
      (live_records N b).length = N ∧ (live_records N b').length = N ∧
      live_records N b' = (live_records N b).tail ++ [e] := by
  have hinv := reachable_index_inv hN hr
  have hio := reachable_full_cursors hN hr hfull
  obtain ⟨b', h1, h2⟩ := add_entry_full_live hinv hfull hio e
  have hl : (live_records N b).length = N := by simp [live_records_full hfull]
  refine ⟨hinv, b', h1, hl, ?_, h2⟩
  rw [h2, List.length_append, List.length_tail, hl, List.length_singleton]
  omega

/-- C3 at scenario 2 of the specification: the full buffer of capacity 4 reached
by five insertions; a sixth insertion drops exactly the oldest record. -/
theorem add_entry_overwrites_oldest_witness :
    0 < 4 ∧ Reachable 4 scenario_wrapped ∧ scenario_wrapped.full = true ∧
    live_records 4 scenario_wrapped = [⟨2000, 3⟩, ⟨3000, 1⟩, ⟨4000, 2⟩, ⟨5000, 2⟩] ∧
    IndexInv 4 scenario_wrapped ∧
    ∃ b', aesd_circular_buffer_add_entry 4 (some scenario_wrapped) (some ⟨6000, 7⟩)
        = .ok (some b') ∧
      (live_records 4 scenario_wrapped).length = 4 ∧ (live_records 4 b').length = 4 ∧
      live_records 4 b' = (live_records 4 scenario_wrapped).tail ++ [⟨6000, 7⟩] :=
  ⟨by decide, scenario_wrapped_reachable, by decide, by decide,
    add_entry_overwrites_oldest (by decide) scenario_wrapped_reachable (by decide) ⟨6000, 7⟩⟩

end AesdCircularBuffer
